import Mathlib

/-!
Verification of the URL-classification-and-dispatch pipeline of the
YouTube MP3 batch tool (`main.py`).

Python strings are modelled as `List Char` (sequences of Unicode scalar
values).  Pure helpers of `main.py` (`sanitize_url`, `is_youtube_url`)
are embedded together with the parts of CPython's `urllib.parse`
(`urlparse`, `urlunparse`, `parse_qs`, `urlencode`, `quote_plus`,
`unquote_plus`) that they call.  The effectful pipeline functions
(`run_ytdlp`, `download_mp3`, `fetch_metadata`, `process_video`,
`process_playlist`, `batch_from_file`) are embedded as functions over an
explicit oracle describing the outcomes of the external-process and
filesystem calls; the observable behaviour (log lines, which collaborator
calls happen, in which order) is returned as an event list, and Python
exceptions are modelled with `Except`.
-/

namespace Y2B

/-- Python `str` modelled as a list of Unicode scalar values. -/
abbrev PyStr := List Char

/-- The Python exceptions that the modelled code can raise. -/
inductive PyErr where
  /-- `ValueError`, raised by `urllib.parse.urlsplit` on a bad authority. -/
  | valueError
  /-- `TypeError`, e.g. from subscripting an exception object. -/
  | typeError
  deriving DecidableEq

/-! ### Basic character/string helpers -/

/-- `leadsWith pre l` : `l` starts with `pre` (Python `str.startswith`). -/
def leadsWith : PyStr → PyStr → Bool
  | [], _ => true
  | _ :: _, [] => false
  | a :: as, b :: bs => a == b && leadsWith as bs

/-- Python's `needle in hay` substring test. -/
def containsSub (needle : PyStr) (hay : PyStr) : Bool :=
  if leadsWith needle hay then true
  else match hay with
    | [] => false
    | _ :: t => containsSub needle t

/-- Membership of a single character (Python `ch in s`). -/
def hasChar (ch : Char) (l : PyStr) : Bool := l.any (fun c => c == ch)

/-- ASCII whitespace stripped by Python `str.strip()` (the Unicode-only
whitespace code points are immaterial for every claim). -/
def isWsChar (c : Char) : Bool :=
  c == ' ' || c == '\t' || c == '\n' || c == '\r' ||
  c == '\x0b' || c == '\x0c'

/-- Python `str.strip()`. -/
def stripPy (l : PyStr) : PyStr :=
  ((l.dropWhile isWsChar).reverse.dropWhile isWsChar).reverse

/-- ASCII lower-casing of one character (`str.lower` restricted to the
ASCII range, which is all the scheme grammar can contain). -/
def lowerC (c : Char) : Char :=
  if 65 ≤ c.toNat ∧ c.toNat ≤ 90 then Char.ofNat (c.toNat + 32) else c

/-- ASCII upper-casing of one character. -/
def upperC (c : Char) : Char :=
  if 97 ≤ c.toNat ∧ c.toNat ≤ 122 then Char.ofNat (c.toNat - 32) else c

/-- Python `str.lower()` (ASCII fragment). -/
def lowerStr (l : PyStr) : PyStr := l.map lowerC

/-- Python `str.upper()` (ASCII fragment). -/
def upperStr (l : PyStr) : PyStr := l.map upperC

/-- Split a list at the first character satisfying `p`: returns the
longest `p`-free leading segment and the remainder (which, when nonempty,
starts with a character satisfying `p`). -/
def breakAt (p : Char → Bool) : PyStr → PyStr × PyStr
  | [] => ([], [])
  | c :: cs =>
    if p c then ([], c :: cs)
    else ((breakAt p cs).1.cons c, (breakAt p cs).2)

/-! ### Percent-coding (`urllib.parse.quote_plus` / `unquote_plus`)

`urlencode` percent-encodes with `quote_plus` over the always-safe set
(letters, digits, `_.-~`), space becoming `+`; non-ASCII characters are
encoded as their UTF-8 bytes.  `parse_qsl` decodes with `unquote_plus`:
`+` becomes space, maximal ASCII runs are percent-decoded to bytes and
UTF-8-decoded with replacement on malformed sequences, non-ASCII
characters pass through. -/

/-- The characters `quote` never encodes (`_ALWAYS_SAFE`): ASCII
letters, digits, and `_` (95), `.` (46), `-` (45), `~` (126). -/
def safeChar (c : Char) : Bool :=
  (65 ≤ c.toNat && c.toNat ≤ 90) || (97 ≤ c.toNat && c.toNat ≤ 122) ||
  (48 ≤ c.toNat && c.toNat ≤ 57) || c.toNat == 95 || c.toNat == 46 ||
  c.toNat == 45 || c.toNat == 126

/-- Uppercase hex digit of a nibble. -/
def hexDigitC (n : Nat) : Char :=
  if n < 10 then Char.ofNat (48 + n) else Char.ofNat (65 + (n - 10))

/-- Is `c` a hex digit (either case)? -/
def isHexC (c : Char) : Bool :=
  (48 ≤ c.toNat && c.toNat ≤ 57) || (65 ≤ c.toNat && c.toNat ≤ 70) ||
  (97 ≤ c.toNat && c.toNat ≤ 102)

/-- Numeric value of a hex digit. -/
def hexV (c : Char) : Nat :=
  if 48 ≤ c.toNat ∧ c.toNat ≤ 57 then c.toNat - 48
  else if 65 ≤ c.toNat ∧ c.toNat ≤ 70 then c.toNat - 55
  else if 97 ≤ c.toNat ∧ c.toNat ≤ 102 then c.toNat - 87
  else 0

/-- UTF-8 encoding of one scalar value. -/
def utf8Enc (c : Char) : List Nat :=
  if c.toNat < 0x80 then [c.toNat]
  else if c.toNat < 0x800 then [0xC0 + c.toNat / 64, 0x80 + c.toNat % 64]
  else if c.toNat < 0x10000 then
    [0xE0 + c.toNat / 4096, 0x80 + c.toNat / 64 % 64, 0x80 + c.toNat % 64]
  else
    [0xF0 + c.toNat / 262144, 0x80 + c.toNat / 4096 % 64,
     0x80 + c.toNat / 64 % 64, 0x80 + c.toNat % 64]

/-- Is `b` a UTF-8 continuation byte? -/
def isCont (b : Nat) : Bool := 0x80 ≤ b && b < 0xC0

/-- U+FFFD, substituted for malformed sequences (`errors='replace'`). -/
def replC : Char := Char.ofNat 0xFFFD

/-- Streaming UTF-8 decoder with replacement of malformed input.
`exp` is the number of continuation bytes still expected, `acc` the
value accumulated for the current sequence.  On valid UTF-8 (all that
the encoder emits) it inverts `utf8Enc`; each malformed lead, stray or
missing continuation byte yields a replacement character. -/
def utf8DecS (exp acc : Nat) : List Nat → PyStr
  | [] => if exp = 0 then [] else [replC]
  | b :: bs =>
    if exp = 0 ∨ ¬isCont b then
      (if exp = 0 then [] else [replC]) ++
      (if b < 0x80 then Char.ofNat b :: utf8DecS 0 0 bs
       else if 0xC0 ≤ b ∧ b ≤ 0xDF then utf8DecS 1 (b - 0xC0) bs
       else if 0xE0 ≤ b ∧ b ≤ 0xEF then utf8DecS 2 (b - 0xE0) bs
       else if 0xF0 ≤ b ∧ b ≤ 0xF7 then utf8DecS 3 (b - 0xF0) bs
       else replC :: utf8DecS 0 0 bs)
    else
      if exp = 1 then Char.ofNat (acc * 64 + (b - 0x80)) :: utf8DecS 0 0 bs
      else utf8DecS (exp - 1) (acc * 64 + (b - 0x80)) bs

/-- UTF-8 decoding (`bytes.decode('utf-8', errors='replace')`). -/
def utf8Dec (bs : List Nat) : PyStr := utf8DecS 0 0 bs

/-- Percent-encode one byte as `%XX` (uppercase, as CPython's quoter). -/
def pctByte (b : Nat) : PyStr := ['%', hexDigitC (b / 16), hexDigitC (b % 16)]

/-- `quote_plus` image of one character (with `safe=''`, as `urlencode`
calls it): safe characters kept, space to `+`, the rest percent-encoded
as UTF-8 bytes. -/
def qpChar (c : Char) : PyStr :=
  if safeChar c then [c]
  else if c == ' ' then ['+']
  else (utf8Enc c).flatMap pctByte

/-- `urllib.parse.quote_plus` with `safe=''`. -/
def qpStr (v : PyStr) : PyStr := v.flatMap qpChar

/-- `unquote_to_bytes`: percent-decode an ASCII run to a byte sequence;
invalid escapes are kept literally. -/
def pctDecode : PyStr → List Nat
  | [] => []
  | '%' :: c1 :: c2 :: rest =>
    if isHexC c1 && isHexC c2 then (hexV c1 * 16 + hexV c2) :: pctDecode rest
    else 37 :: pctDecode (c1 :: c2 :: rest)
  | '%' :: rest => 37 :: pctDecode rest
  | c :: rest => c.toNat :: pctDecode rest

/-- Is `c` an ASCII character? -/
def isAsciiC (c : Char) : Bool := c.toNat < 0x80

/-- Fuelled core of `unquote`: maximal ASCII runs are percent-decoded
and UTF-8-decoded, other characters pass through unchanged. -/
def pUnquoteF : Nat → PyStr → PyStr
  | 0, s => s
  | _ + 1, [] => []
  | fuel + 1, c :: cs =>
    if isAsciiC c then
      utf8Dec (pctDecode ((c :: cs).takeWhile isAsciiC)) ++
        pUnquoteF fuel ((c :: cs).dropWhile isAsciiC)
    else c :: pUnquoteF fuel cs

/-- `urllib.parse.unquote` (UTF-8, `errors='replace'`). -/
def pUnquote (s : PyStr) : PyStr := pUnquoteF s.length s

/-- The `+` to space replacement of `unquote_plus`. -/
def plusToSpace (c : Char) : Char := if c == '+' then ' ' else c

/-- `urllib.parse.unquote_plus`: `+` to space, then `unquote`. -/
def unquotePlus (s : PyStr) : PyStr :=
  pUnquote (s.map plusToSpace)

/-! ### `urllib.parse.urlparse` / `urlunparse`

Embedded from CPython `urllib/parse.py`: `urlsplit` strips the unsafe
bytes TAB/CR/LF, recognises a scheme (first `:` at a positive position,
first character an ASCII letter, all scheme characters legal), takes a
`//`-led authority up to the first of `/?#` (raising `ValueError` when
it contains an unmatched square bracket), then splits off the fragment
at the first `#` and the query at the first `?`.  `urlparse` further
splits `;params` off the last path segment. -/

/-- Characters legal inside a scheme (`scheme_chars`): ASCII letters,
digits, `+` (43), `-` (45), `.` (46). -/
def schemeChar (c : Char) : Bool :=
  (65 ≤ c.toNat && c.toNat ≤ 90) || (97 ≤ c.toNat && c.toNat ≤ 122) ||
  (48 ≤ c.toNat && c.toNat ≤ 57) || c.toNat == 43 || c.toNat == 45 ||
  c.toNat == 46

/-- Is `c` an ASCII letter? -/
def isAlphaC (c : Char) : Bool :=
  (65 ≤ c.toNat && c.toNat ≤ 90) || (97 ≤ c.toNat && c.toNat ≤ 122)

/-- The TAB/CR/LF removal applied by `urlsplit` before parsing. -/
def stripURL (l : PyStr) : PyStr :=
  l.filter fun c => !(c == '\t' || c == '\r' || c == '\n')

/-- Scheme recognition of `urlsplit`: `some (scheme.lower(), rest)` when
the text before the first `:` is a nonempty legal scheme. -/
def detectScheme (url : PyStr) : Option (PyStr × PyStr) :=
  match breakAt (fun c => c == ':') url with
  | (pre, _ :: rest) =>
    if pre ≠ [] ∧ isAlphaC (pre.headD ' ') ∧ pre.all schemeChar then
      some (lowerStr pre, rest)
    else none
  | (_, []) => none

/-- Delimiters ending the authority (`_splitnetloc`). -/
def netlocEnd (c : Char) : Bool := c == '/' || c == '?' || c == '#'

/-- Unmatched square bracket in the authority (raises `ValueError`). -/
def bracketBad (netloc : PyStr) : Bool :=
  hasChar '[' netloc != hasChar ']' netloc

/-- Python `s.split(ch, 1)` keeping the pieces: when `ch` occurs, the
parts before and after its first occurrence; otherwise `(l, [])`. -/
def splitAtFirst (ch : Char) (l : PyStr) : PyStr × PyStr :=
  match breakAt (fun c => c == ch) l with
  | (a, _ :: b) => (a, b)
  | (_, []) => (l, [])

/-- `uses_params` : the schemes for which `urlparse` splits `;params`
off the path. -/
def usesParams : List PyStr :=
  ["", "ftp", "hdl", "prospero", "http", "imap", "https", "shttp",
   "rtsp", "rtspu", "sip", "sips", "mms", "sftp", "tel"].map String.toList

/-- `uses_netloc` : the schemes for which `urlunsplit` materialises a
`//` authority marker. -/
def usesNetloc : List PyStr :=
  ["", "ftp", "http", "gopher", "nntp", "telnet", "imap", "wais",
   "file", "mms", "https", "shttp", "snews", "prospero", "rtsp",
   "rtspu", "rsync", "svn", "svn+ssh", "sftp", "nfs", "git",
   "git+ssh", "ws", "wss"].map String.toList

/-- Result of `urlsplit`. -/
structure SplitR where
  scheme : PyStr
  netloc : PyStr
  path : PyStr
  query : PyStr
  fragment : PyStr
  deriving DecidableEq

/-- The scheme-removal step of `urlsplit`: `(scheme, remainder)`. -/
def schemeSplit (url1 : PyStr) : PyStr × PyStr :=
  match detectScheme url1 with
  | some pr => pr
  | none => ([], url1)

/-- The authority step of `urlsplit`: `(netloc, remainder)`. -/
def netlocSplit (url2 : PyStr) : PyStr × PyStr :=
  if leadsWith ['/', '/'] url2 then breakAt netlocEnd (url2.drop 2)
  else ([], url2)

/-- `urllib.parse.urlsplit` (with `allow_fragments=True`): strip the
unsafe bytes, remove the scheme, take the `//`-led authority, raise on
an unmatched bracket in it, then split fragment (first `#`) and query
(first `?`) off the remainder. -/
def urlsplitE (url0 : PyStr) : Except PyErr SplitR :=
  if bracketBad (netlocSplit (schemeSplit (stripURL url0)).2).1 then .error .valueError
  else
    .ok ⟨(schemeSplit (stripURL url0)).1,
         (netlocSplit (schemeSplit (stripURL url0)).2).1,
         (splitAtFirst '?'
           (splitAtFirst '#' (netlocSplit (schemeSplit (stripURL url0)).2).2).1).1,
         (splitAtFirst '?'
           (splitAtFirst '#' (netlocSplit (schemeSplit (stripURL url0)).2).2).1).2,
         (splitAtFirst '#' (netlocSplit (schemeSplit (stripURL url0)).2).2).2⟩
/- `_checknetloc` (a `ValueError` possible only when a non-ASCII
authority character NFKC-normalises into one of `/?#@:`) is modelled as
always passing: it needs the Unicode character database and no claim
depends on it. -/

/-- Split at the last occurrence of `ch`:
`some (before, after)` with `l = before ++ ch :: after` and `ch ∉ after`. -/
def splitAtLast (ch : Char) (l : PyStr) : Option (PyStr × PyStr) :=
  match breakAt (fun c => c == ch) l.reverse with
  | (ra, _ :: rb) => some (rb.reverse, ra.reverse)
  | (_, []) => none

/-- `_splitparams` : split `;params` off the last path segment.  Only
called when `;` occurs in the path. -/
def splitParams (path : PyStr) : PyStr × PyStr :=
  match splitAtLast '/' path with
  | some (before, after) =>
    match breakAt (fun c => c == ';') after with
    | (a1, _ :: a2) => (before ++ '/' :: a1, a2)
    | (_, []) => (path, [])
  | none =>
    match breakAt (fun c => c == ';') path with
    | (a1, _ :: a2) => (a1, a2)
    | (_, []) => (path, [])

/-- Result of `urlparse` (a `ParseResult`). -/
structure Parsed where
  scheme : PyStr
  netloc : PyStr
  path : PyStr
  params : PyStr
  query : PyStr
  fragment : PyStr
  deriving DecidableEq

/-- The `;params` step of `urlparse`: performed only for schemes in
`uses_params` and only when `;` occurs in the path. -/
def pathParamsOf (scheme path : PyStr) : PyStr × PyStr :=
  if usesParams.contains scheme ∧ hasChar ';' path then splitParams path
  else (path, [])

/-- `urllib.parse.urlparse`. -/
def urlparseE (url0 : PyStr) : Except PyErr Parsed :=
  match urlsplitE url0 with
  | .error e => .error e
  | .ok s =>
    .ok ⟨s.scheme, s.netloc, (pathParamsOf s.scheme s.path).1,
         (pathParamsOf s.scheme s.path).2, s.query, s.fragment⟩

/-- `urllib.parse.urlunsplit`. -/
def urlunsplit (scheme netloc url query fragment : PyStr) : PyStr :=
  let url :=
    if netloc ≠ [] ∨
        (scheme ≠ [] ∧ usesNetloc.contains scheme ∧ ¬leadsWith ['/', '/'] url) then
      '/' :: '/' :: (netloc ++
        (if url ≠ [] ∧ ¬leadsWith ['/'] url then '/' :: url else url))
    else url
  let url := if scheme ≠ [] then scheme ++ ':' :: url else url
  let url := if query ≠ [] then url ++ '?' :: query else url
  if fragment ≠ [] then url ++ '#' :: fragment else url

/-- `urllib.parse.urlunparse` on a `Parsed` value. -/
def urlunparse (p : Parsed) : PyStr :=
  let url := p.path ++ (if p.params ≠ [] then ';' :: p.params else [])
  urlunsplit p.scheme p.netloc url p.query p.fragment

/-- Python `s.split(ch)` (all pieces). -/
def splitOnChar (ch : Char) : PyStr → List PyStr
  | [] => [[]]
  | c :: cs =>
    match splitOnChar ch cs with
    | h :: t => if c == ch then [] :: h :: t else (c :: h) :: t
    | [] => [[c]]

/-- One `parse_qsl` chunk: skip empty chunks, chunks without `=` and
chunks with a blank value; `unquote_plus` both name and value. -/
def qsStep (chunk : PyStr) (acc : List (PyStr × PyStr)) : List (PyStr × PyStr) :=
  if chunk = [] then acc
  else
    match breakAt (fun c => c == '=') chunk with
    | (_, []) => acc
    | (n, _ :: v) =>
      if v = [] then acc else (unquotePlus n, unquotePlus v) :: acc

/-- `urllib.parse.parse_qsl` with default arguments: split the query on
`&` and process each chunk. -/
def qsPairs (qs : PyStr) : List (PyStr × PyStr) :=
  (splitOnChar '&' qs).foldr qsStep []

/-- First value of key `k` in `parse_qs(qs)` — `parse_qs(qs)[k][0]`
when `k in parse_qs(qs)`, else `none`. -/
def firstVal (k : PyStr) (qs : PyStr) : Option PyStr :=
  ((qsPairs qs).filter fun pr => pr.1 = k).head?.map (·.2)

/-- `urlencode` of the dict `main.py` builds: key `v` first when
present, then key `list`, values `quote_plus`-encoded. -/
def encodeVL (ov ol : Option PyStr) : PyStr :=
  let items :=
    (match ov with
     | some v => [['v', '='] ++ qpStr v]
     | none => []) ++
    (match ol with
     | some l => [['l', 'i', 's', 't', '='] ++ qpStr l]
     | none => [])
  match items with
  | [] => []
  | h :: t => t.foldl (fun acc it => acc ++ '&' :: it) h

/-! ### The helpers of `main.py` -/

/-- `main.py` `sanitize_url`: keep only the `v` and `list` query
parameters (first value each, when present with a non-blank value) and
rebuild the URL. -/
def sanitize_url (raw : PyStr) : Except PyErr PyStr :=
  match urlparseE raw with
  | .error e => .error e
  | .ok p =>
    .ok (urlunparse ⟨p.scheme, p.netloc, p.path, p.params,
      encodeVL (firstVal ['v'] p.query) (firstVal ['l', 'i', 's', 't'] p.query),
      p.fragment⟩)

/-- The eight prefixes accepted by the `main.py` host regular
expression `^https?://(www\.)?(youtube\.com|youtu\.be)/`. -/
def ytStems : List PyStr :=
  [ "http://youtube.com/".toList, "http://www.youtube.com/".toList,
    "http://youtu.be/".toList, "http://www.youtu.be/".toList,
    "https://youtube.com/".toList, "https://www.youtube.com/".toList,
    "https://youtu.be/".toList, "https://www.youtu.be/".toList ]

/-- `main.py` `is_youtube_url` (`re.match` anchors at the start, so the
regular expression is exactly a prefix test over `ytStems`). -/
def is_youtube_url (url : PyStr) : Bool :=
  ytStems.any fun stem => leadsWith stem url

/-! ### The effectful pipeline of `main.py`

External-process and filesystem outcomes are supplied by an oracle
(`World`, one `ItemO` per URL).  Each pipeline function returns the list
of its observable events (log lines and collaborator invocations) in
order; a Python exception escaping a function is an `Except.error`. -/

/-- Outcome of one `yt-dlp` download invocation (`subprocess.run`). -/
structure DlO where
  /-- Process return code. -/
  rc : Int
  /-- `proc.stdout.strip().splitlines()` (used only by `run_ytdlp`). -/
  stdoutLines : List PyStr
  /-- The `*.mp3` glob results in the temporary staging folder after the
  call, as (basename, mtime) pairs in glob order.  Only the basename of
  the chosen candidate survives into the final path, so the staging
  directory prefix is abstracted away. -/
  candidates : List (PyStr × Nat)
  deriving DecidableEq

/-- One member object of a flat-playlist JSON listing: only its `id`
field is ever read; `none` models an entry with no `id` key (Python
would raise `KeyError`/`TypeError` on subscripting). -/
structure Entry where
  id : Option PyStr
  deriving DecidableEq

/-- Oracle for one URL: outcomes of every external call `main.py` can
make for it. -/
structure ItemO where
  /-- Did `yt-dlp --get-title --get-uploader` succeed (`check=True`)? -/
  metaOk : Bool
  /-- Its `stdout.splitlines()` on success. -/
  metaLines : List PyStr
  /-- `int(time.time())` observed when building the fallback title. -/
  time : Nat
  /-- Outcome of the download invocation. -/
  dl : DlO
  /-- `os.path.exists` on candidate final paths. -/
  fsExists : PyStr → Bool
  /-- Does `trim_and_tag` return without raising? -/
  trimOk : Bool
  /-- `yt-dlp --flat-playlist --dump-single-json` outcome: playlist
  title and entry list, or `none` when the call or `json.loads` or the
  dictionary access fails (all caught by the same handler). -/
  listing : Option (PyStr × List Entry)

/-- Oracle for a whole run. -/
abbrev World := PyStr → ItemO

/-- Observable events: log lines and collaborator invocations. -/
inductive Ev where
  /-- `logging.warning("Skipping invalid URL: ...")` from `process_video`. -/
  | warn_invalid (url : PyStr)
  /-- `logging.info("Downloading: '<title>' by <artist>")`. -/
  | meta (title artist : PyStr)
  /-- `download_mp3` invoked for `url`. -/
  | download_called (url : PyStr)
  /-- `logging.error("Failed to download MP3 for: ...")`. -/
  | err_download (url : PyStr)
  /-- `trim_and_tag` invoked. -/
  | trim_called (path title artist : PyStr) (length : Nat)
  /-- `logging.error("Error trimming/tagging ...")`. -/
  | err_trim (path : PyStr)
  /-- `logging.warning("Skipping invalid playlist URL: ...")`. -/
  | warn_invalid_pl (url : PyStr)
  /-- `logging.info("Playlist '<title>' contains <n> videos")`. -/
  | info_playlist (title : PyStr) (n : Nat)
  /-- `logging.error("Error processing playlist ...")`. -/
  | err_playlist (url : PyStr)
  /-- `logging.warning("Skipping invalid URL: ...")` from the batch loop. -/
  | warn_skip (link : PyStr)
  /-- `logging.error("Batch file not found: ...")`. -/
  | err_batch_missing
  /-- The batch loop dispatches `link` to `process_video`. -/
  | called_video (link : PyStr)
  /-- The batch loop dispatches `link` to `process_playlist`. -/
  | called_playlist (link : PyStr)
  deriving DecidableEq

/-- `DOWNLOAD_FOLDER` (`~/Downloads/youtube_mp3s` after `expanduser`;
the concrete home-directory prefix is immaterial). -/
def DOWNLOAD_FOLDER : PyStr := "~/Downloads/youtube_mp3s".toList

/-- `os.path.join` for a folder with no trailing separator. -/
def joinPath (folder name : PyStr) : PyStr := folder ++ '/' :: name

/-- Python `max(xs, key=f)` on a nonempty list: the first element with
the maximal key (ties keep the earlier element). -/
def pyMaxBy (f : α → Nat) : α → List α → α
  | cur, [] => cur
  | cur, x :: xs => if f cur < f x then pyMaxBy f x xs else pyMaxBy f cur xs

/-- `main.py` `run_ytdlp`: `None` on nonzero exit, on empty output and
on a final stdout line whose uppercasing is `NA`; otherwise the final
stdout line.  (Defined in `main.py` but never called by it.) -/
def run_ytdlp (r : DlO) : Option PyStr :=
  if r.rc ≠ 0 then none
  else
    match r.stdoutLines.getLast? with
    | none => none
    | some filepath =>
      if upperStr filepath = "NA".toList then none else some filepath

/-- `main.py` `download_mp3`: `None` on nonzero exit or when no `.mp3`
candidate exists in the staging folder; otherwise moves the candidate
with the newest mtime into `output_folder` and returns its final path.
The staging folder (`tempfile.TemporaryDirectory`) is released by the
context manager on every path, success or failure. -/
def download_mp3 (o : DlO) (output_folder : PyStr) : Option PyStr :=
  if o.rc ≠ 0 then none
  else
    match o.candidates with
    | [] => none
    | c :: cs =>
      let latest := pyMaxBy (fun pr => pr.2) c cs
      some (joinPath output_folder latest.1)

/-- `main.py` `fetch_metadata`: `(title, uploader)` from the resolver's
stdout lines, with positional fallbacks; on any exception the fallback
pair `(f"Video_<int(time.time())>", "Unknown Artist")`. -/
def fetch_metadata (o : ItemO) : PyStr × PyStr :=
  if o.metaOk then
    (o.metaLines.headD "Unknown Title".toList,
     o.metaLines[1]?.getD "Unknown Artist".toList)
  else
    ("Video_".toList ++ (toString o.time).toList, "Unknown Artist".toList)

/-- Body of `process_video` after the `sanitize_url` call (lines
128-140).  Total: every failure below that point is either a returned
value (`download_mp3` returning `None`) or caught in place
(`trim_and_tag` inside `try/except`). -/
def pvHead (w : World) (url : PyStr) : List Ev :=
  [.meta (fetch_metadata (w url)).1 (fetch_metadata (w url)).2, .download_called url]

def process_videoOk (w : World) (url : PyStr) (length : Nat) : List Ev :=
  if ¬is_youtube_url url then [.warn_invalid url]
  else
    match download_mp3 (w url).dl DOWNLOAD_FOLDER with
    | none => pvHead w url ++ [.err_download url]
    | some p =>
      if p = [] ∨ ¬(w url).fsExists p then pvHead w url ++ [.err_download url]
      else if (w url).trimOk then
        pvHead w url ++
          [.trim_called p (fetch_metadata (w url)).1 (fetch_metadata (w url)).2 length]
      else pvHead w url ++ [.err_trim p]

/-- `main.py` `process_video`.  The only uncaught exception is the
`ValueError` that `sanitize_url` can raise (line 127 sits outside any
handler). -/
def process_video (w : World) (raw_url : PyStr) (length : Nat) :
    Except PyErr (List Ev) :=
  match sanitize_url raw_url with
  | .error e => .error e
  | .ok url => .ok (process_videoOk w url length)

/-- The canonical member URL `main.py` synthesises from an entry id. -/
def watchURL (i : PyStr) : PyStr := "https://www.youtube.com/watch?v=".toList ++ i

/-- The member loop of `process_playlist`.  The `try` body builds
`e['id']` and calls `process_video`; on ANY exception from the body the
handler `logging.error(f"Error processing video {e['id']}: {e}")`
subscripts the caught exception (the loop variable `e` is shadowed by
`except Exception as e`), which itself raises `TypeError` — so the first
raising member aborts the loop.  Returns the events produced so far and
whether an exception escaped. -/
def playlistLoop (w : World) (length : Nat) : List Entry → List Ev × Bool
  | [] => ([], false)
  | e :: rest =>
    match e.id with
    | none => ([], true)
    | some i =>
      match process_video w (watchURL i) length with
      | .error _ => ([], true)
      | .ok evs =>
        let (evs2, esc) := playlistLoop w length rest
        (evs ++ evs2, esc)

/-- Body of `process_playlist` after the `sanitize_url` call (lines
144-162).  Total: the outer `try/except` catches every exception of the
body, including the `TypeError` escaping the member loop, so the call
returns normally on every path below `sanitize_url`. -/
def process_playlistOk (w : World) (url : PyStr) (length : Nat) : List Ev :=
  if ¬is_youtube_url url then [.warn_invalid_pl url]
  else
    match (w url).listing with
    | none => [.err_playlist url]
    | some (title, entries) =>
      if (playlistLoop w length entries).2 then
        .info_playlist title entries.length ::
          (playlistLoop w length entries).1 ++ [.err_playlist url]
      else .info_playlist title entries.length :: (playlistLoop w length entries).1

/-- `main.py` `process_playlist`.  `sanitize_url` (line 143) is outside
the `try`, so its `ValueError` escapes. -/
def process_playlist (w : World) (raw_url : PyStr) (length : Nat) :
    Except PyErr (List Ev) :=
  match sanitize_url raw_url with
  | .error e => .error e
  | .ok url => .ok (process_playlistOk w url length)

/-- One batch-file line as `batch_from_file` handles it (total form:
the `ValueError` branch of the pipelines is unreachable for lines that
pass `is_youtube_url`, see `sanitize_ok_of_yt`). -/
def handleLine (w : World) (length : Nat) (line : PyStr) : List Ev :=
  let link := stripPy line
  if link = [] then []
  else if ¬is_youtube_url link then [.warn_skip link]
  else if containsSub "list=".toList link then
    .called_playlist link ::
      (match process_playlist w link length with
       | .ok evs => evs
       | .error _ => [])
  else
    .called_video link ::
      (match process_video w link length with
       | .ok evs => evs
       | .error _ => [])

/-- One iteration of the `batch_from_file` loop (lines 170-179): strip
the line, skip blanks and non-platform lines, then dispatch on the
`'list='` substring test.  No handler wraps the dispatch, so an
exception escaping a pipeline call would escape the loop. -/
def lineStep (w : World) (length : Nat) (line : PyStr) : Except PyErr (List Ev) :=
  if stripPy line = [] then .ok []
  else if ¬is_youtube_url (stripPy line) then .ok [Ev.warn_skip (stripPy line)]
  else if containsSub "list=".toList (stripPy line) then
    match process_playlist w (stripPy line) length with
    | .error e => .error e
    | .ok evs => .ok (Ev.called_playlist (stripPy line) :: evs)
  else
    match process_video w (stripPy line) length with
    | .error e => .error e
    | .ok evs => .ok (Ev.called_video (stripPy line) :: evs)

/-- The line loop of `batch_from_file`: strictly sequential, in file
order; an escaping exception would abort the remaining lines. -/
def batchLoop (w : World) (length : Nat) : List PyStr → Except PyErr (List Ev)
  | [] => .ok []
  | line :: rest =>
    match lineStep w length line with
    | .error e => .error e
    | .ok evs =>
      match batchLoop w length rest with
      | .error e => .error e
      | .ok evs2 => .ok (evs ++ evs2)

/-- `main.py` `batch_from_file`: `present` is `os.path.isfile(file_path)`
and `lines` the file's lines. -/
def batch_from_file (present : Bool) (lines : List PyStr) (w : World)
    (length : Nat) : Except PyErr (List Ev) :=
  if present then batchLoop w length lines else .ok [.err_batch_missing]

/-! ### Stub oracles for concrete witnesses -/

/-- A stub item oracle: failing metadata call, failing download
(nonzero exit), no file exists, playlist listing unavailable. -/
def stubItem : ItemO :=
  ⟨false, [], 0, ⟨1, [], []⟩, fun _ => false, true, none⟩

/-- The all-stub world. -/
def stubW : World := fun _ => stubItem

/-! ### Claim C2 -/

/-- The world for the C2 failing input: the playlist listing holds two
members, the first lacking an `id` key, the second with id `b`. -/
def w2 : World := fun _ =>
  { stubItem with listing := some ("T".toList, [⟨none⟩, ⟨some "b".toList⟩]) }

/-- `quote_plus` image of one character after the `+`-to-space map of
`unquote_plus` has been applied (proof-side companion of `qpChar`). -/
def qpCharP (c : Char) : PyStr :=
  if safeChar c then [c]
  else if c == ' ' then [' ']
  else (utf8Enc c).flatMap pctByte

/-! ### `parse_qs` recovers the re-encoded `v` and `list` values -/

/-- The character class of `quote_plus` output. -/
def queryOutChar (c : Char) : Bool :=
  safeChar c || c == '+' || c == '%' || isHexC c

/-- The path-with-params segment that `urlunparse` rebuilds from the
split `(path, params)` pair. -/
def joinPP (path params : PyStr) : PyStr :=
  path ++ (if params ≠ [] then ';' :: params else [])

/-- Strings containing none of the bytes `urlsplit` strips. -/
def cleanStr (l : PyStr) : Prop :=
  ∀ c ∈ l, (c == '\t') = false ∧ (c == '\r') = false ∧ (c == '\n') = false

/-- The invariants a `ParseResult` obtained from `urlparse` satisfies;
they are exactly what makes `urlunparse` then `urlparse` the identity
when an authority is present. -/
structure GoodParsed (p : Parsed) : Prop where
  scheme_ok : p.scheme ≠ [] →
    isAlphaC (p.scheme.headD ' ') = true ∧ p.scheme.all schemeChar = true ∧
    lowerStr p.scheme = p.scheme
  netloc_free : ∀ c ∈ p.netloc, netlocEnd c = false
  netloc_br : bracketBad p.netloc = false
  body_hash : ∀ c ∈ joinPP p.path p.params, (c == '#') = false
  body_q : ∀ c ∈ joinPP p.path p.params, (c == '?') = false
  query_hash : ∀ c ∈ p.query, (c == '#') = false
  lead : p.netloc ≠ [] →
    joinPP p.path p.params = [] ∨ leadsWith ['/'] (joinPP p.path p.params) = true
  pp : pathParamsOf p.scheme (joinPP p.path p.params) = (p.path, p.params)
  clean_scheme : cleanStr p.scheme
  clean_netloc : cleanStr p.netloc
  clean_body : cleanStr (joinPP p.path p.params)
  clean_query : cleanStr p.query
  clean_frag : cleanStr p.fragment

/-! ### Theorems -/

theorem breakAt_nil (p : Char → Bool) : breakAt p [] = ([], []) := rfl

theorem breakAt_cons (p : Char → Bool) (c : Char) (cs : PyStr) :
    breakAt p (c :: cs) =
      if p c then ([], c :: cs) else ((breakAt p cs).1.cons c, (breakAt p cs).2) := by
  by_cases h : p c <;> simp [breakAt, h]

/-- If no character of `l` satisfies `p`, `breakAt` returns everything. -/
theorem breakAt_free {p : Char → Bool} {l : PyStr}
    (h : ∀ c ∈ l, p c = false) : breakAt p l = (l, []) := by
  induction l with
  | nil => rfl
  | cons c cs ih =>
    have hc : p c = false := h c (List.mem_cons_self c cs)
    rw [breakAt_cons, if_neg (by simp [hc])]
    rw [ih (fun d hd => h d (List.mem_cons_of_mem c hd))]

/-- Splitting at a delimiter after a delimiter-free first segment. -/
theorem breakAt_hit {p : Char → Bool} {a : PyStr} {d : Char} {b : PyStr}
    (ha : ∀ c ∈ a, p c = false) (hd : p d = true) :
    breakAt p (a ++ d :: b) = (a, d :: b) := by
  induction a with
  | nil => simp [breakAt_cons, hd]
  | cons c cs ih =>
    have hc : p c = false := ha c (List.mem_cons_self c cs)
    have ih' := ih (fun e he => ha e (List.mem_cons_of_mem c he))
    simp only [List.cons_append, breakAt_cons, hc, Bool.false_eq_true, if_false, ih']

/-- The two pieces of `breakAt` rebuild the input. -/
theorem breakAt_eq (p : Char → Bool) (l : PyStr) :
    (breakAt p l).1 ++ (breakAt p l).2 = l := by
  induction l with
  | nil => rfl
  | cons c cs ih =>
    rw [breakAt_cons]
    by_cases h : p c <;> simp [h, ih]

/-- Every character of the first `breakAt` piece fails `p`. -/
theorem breakAt_fst_free (p : Char → Bool) (l : PyStr) :
    ∀ c ∈ (breakAt p l).1, p c = false := by
  induction l with
  | nil => intro c hc; simp [breakAt_nil] at hc
  | cons c cs ih =>
    intro d hd
    rw [breakAt_cons] at hd
    by_cases h : p c
    · simp [h] at hd
    · simp [h] at hd
      rcases hd with hd | hd
      · simpa [hd] using h
      · exact ih d hd

/-- The second `breakAt` piece is empty or starts with a `p`-character. -/
theorem breakAt_snd_head (p : Char → Bool) (l : PyStr) :
    (breakAt p l).2 = [] ∨
      ∃ d b, (breakAt p l).2 = d :: b ∧ p d = true := by
  induction l with
  | nil => exact Or.inl rfl
  | cons c cs ih =>
    rw [breakAt_cons]
    by_cases h : p c
    · exact Or.inr ⟨c, cs, by simp [h], h⟩
    · simpa [h] using ih

/-- Characters of either `breakAt` piece come from the input. -/
theorem breakAt_mem {p : Char → Bool} {l : PyStr} {c : Char}
    (h : c ∈ (breakAt p l).1 ∨ c ∈ (breakAt p l).2) : c ∈ l := by
  have := breakAt_eq p l
  rcases h with h | h
  · rw [← this]; exact List.mem_append_left _ h
  · rw [← this]; exact List.mem_append_right _ h

/-! ### Lemmas about `pyMaxBy` -/

theorem pyMaxBy_mem (f : α → Nat) (cs : List α) :
    ∀ c : α, pyMaxBy f c cs ∈ c :: cs := by
  induction cs with
  | nil => intro c; simp [pyMaxBy]
  | cons y ys ih =>
    intro c
    rw [pyMaxBy]
    by_cases h : f c < f y
    · rw [if_pos h]
      have := ih y
      simp only [List.mem_cons] at this ⊢
      tauto
    · rw [if_neg h]
      have := ih c
      simp only [List.mem_cons] at this ⊢
      tauto

theorem pyMaxBy_le (f : α → Nat) (cs : List α) :
    ∀ c : α, ∀ x ∈ c :: cs, f x ≤ f (pyMaxBy f c cs) := by
  induction cs with
  | nil =>
    intro c x hx
    have hxc : x = c := by simpa using hx
    rw [hxc]; simp [pyMaxBy]
  | cons y ys ih =>
    intro c x hx
    rw [pyMaxBy]
    rcases List.mem_cons.mp hx with h1 | h2
    · by_cases h : f c < f y
      · rw [if_pos h, h1]
        exact le_trans (le_of_lt h) (ih y y (List.mem_cons_self y ys))
      · rw [if_neg h, h1]
        exact ih c c (List.mem_cons_self c ys)
    · by_cases h : f c < f y
      · rw [if_pos h]
        exact ih y x h2
      · rw [if_neg h]
        rcases List.mem_cons.mp h2 with h3 | h4
        · rw [h3]
          exact le_trans (le_of_not_lt h) (ih c c (List.mem_cons_self c ys))
        · exact ih c x (List.mem_cons_of_mem c h4)

/-! ### Claim C4 -/

/-- C4, counterexample: `download_mp3` does NOT return the "no result"
value when the external call's reported output path is the literal
placeholder `NA`.  With exit code 0, stdout reporting `NA` and one
candidate file, it returns the final path; the `NA` check lives only in
`run_ytdlp`, a helper `main.py` never calls (which would return `None`
on the same outcome). -/
theorem C4_counterexample :
    download_mp3 (DlO.mk 0 ["NA".toList] [("song.mp3".toList, 5)]) DOWNLOAD_FOLDER =
      some (joinPath DOWNLOAD_FOLDER "song.mp3".toList) ∧
    run_ytdlp (DlO.mk 0 ["NA".toList] [("song.mp3".toList, 5)]) = none := by
  constructor <;> rfl

/-- C4, amended: `download_mp3` returns the explicit "no result" value
(`None`, not an exception) exactly on nonzero exit or when zero
candidate audio files are produced; on success it returns the final
path of one of the candidates inside the destination folder.  The
`NA`-placeholder rejection belongs to the helper `run_ytdlp`, which
`main.py` defines but never invokes. -/
theorem C4_amended (o : DlO) (folder : PyStr) :
    (o.rc ≠ 0 → download_mp3 o folder = none) ∧
    (o.candidates = [] → download_mp3 o folder = none) ∧
    (o.rc = 0 → o.candidates ≠ [] →
      ∃ nm mt, (nm, mt) ∈ o.candidates ∧
        download_mp3 o folder = some (joinPath folder nm)) ∧
    (∀ fp, o.stdoutLines.getLast? = some fp → upperStr fp = "NA".toList →
      run_ytdlp o = none) := by
  refine ⟨fun h => by simp [download_mp3, h], fun h => ?_, fun h0 hne => ?_, fun fp hl hu => ?_⟩
  · by_cases hrc : o.rc ≠ 0
    · simp [download_mp3, hrc]
    · simp [download_mp3, hrc, h]
  · obtain ⟨c, cs, hc⟩ : ∃ c cs, o.candidates = c :: cs := by
      match hcc : o.candidates with
      | [] => exact absurd hcc hne
      | c :: cs => exact ⟨c, cs, rfl⟩
    refine ⟨(pyMaxBy (fun pr => pr.2) c cs).1, (pyMaxBy (fun pr => pr.2) c cs).2, ?_, ?_⟩
    · rw [hc]
      simpa using pyMaxBy_mem (fun pr => pr.2) cs c
    · simp [download_mp3, h0, hc]
  · unfold run_ytdlp
    by_cases h : o.rc ≠ 0
    · rw [if_pos h]
    · rw [if_neg h]
      simp [hl, hu]

/-- C4, witness for the amended theorem at a concrete oracle. -/
theorem C4_amended_witness :
    (DlO.mk 1 [] []).rc ≠ 0 ∧
    download_mp3 (DlO.mk 1 [] []) DOWNLOAD_FOLDER = none :=
  ⟨by decide, (C4_amended (DlO.mk 1 [] []) DOWNLOAD_FOLDER).1 (by decide)⟩

/-! ### Claim C10 -/

/-- C10: with a successful external call and at least one candidate,
`download_mp3` moves exactly the candidate with the most recent
modification time (Python `max` keeps the first maximal element) into
the destination folder and returns its path there; the chosen candidate
is one of the glob results and its mtime is maximal among all of them.
The other candidates stay in the staging directory, which the
`TemporaryDirectory` context manager discards. -/
theorem C10_latest_moved (o : DlO) (folder : PyStr) (c : PyStr × Nat)
    (cs : List (PyStr × Nat)) (h0 : o.rc = 0) (hc : o.candidates = c :: cs) :
    download_mp3 o folder =
      some (joinPath folder (pyMaxBy (fun pr => pr.2) c cs).1) ∧
    pyMaxBy (fun pr => pr.2) c cs ∈ o.candidates ∧
    ∀ x ∈ o.candidates, x.2 ≤ (pyMaxBy (fun pr => pr.2) c cs).2 := by
  refine ⟨by simp [download_mp3, h0, hc], ?_, ?_⟩
  · rw [hc]; exact pyMaxBy_mem (fun pr => pr.2) cs c
  · rw [hc]; exact pyMaxBy_le (fun pr => pr.2) cs c

/-- C10, witness: two candidates, the second one newer — it is chosen. -/
theorem C10_latest_moved_witness :
    download_mp3 (DlO.mk 0 [] [("a.mp3".toList, 3), ("b.mp3".toList, 7)]) DOWNLOAD_FOLDER =
      some (joinPath DOWNLOAD_FOLDER "b.mp3".toList) := by
  have := C10_latest_moved (DlO.mk 0 [] [("a.mp3".toList, 3), ("b.mp3".toList, 7)])
    DOWNLOAD_FOLDER ("a.mp3".toList, 3) [("b.mp3".toList, 7)] (by decide) rfl
  simpa using this.1

/-- C2, evaluation at the failing input.  A playlist listing of two
members whose first member's processing raises (`e['id']` raises
`KeyError` on an entry with no `id`): the handler
`logging.error(f"Error processing video {e['id']}: ...")` subscripts
the caught exception — `except Exception as e` shadows the loop
variable — raising `TypeError`, which escapes the member loop into the
outer handler.  The playlist call does return normally, but member 2 is
never processed and no per-member failure log for member 1 is emitted:
the trace holds only the listing info line and the outer playlist-error
line, with no `download_called` (nor any other event) for member 2. -/
theorem C2_failing_eval :
    process_playlist w2 "https://www.youtube.com/playlist?list=PL".toList 60 =
      .ok [.info_playlist "T".toList 2,
           .err_playlist "https://www.youtube.com/playlist?list=PL".toList] ∧
    ∀ u, Ev.download_called u ∉
      [Ev.info_playlist "T".toList 2,
       Ev.err_playlist "https://www.youtube.com/playlist?list=PL".toList] := by
  constructor
  · rfl
  · intro u
    simp

/-! ### Claim C7 -/

/-- C7: a URL failing the platform host pattern after normalization is
classified invalid — `process_video` logs the warning and returns, and
no `download_mp3` call is ever attempted for it. -/
theorem C7_invalid_no_download (w : World) (raw : PyStr) (length : Nat)
    (url : PyStr) (hs : sanitize_url raw = .ok url)
    (hy : is_youtube_url url = false) :
    process_video w raw length = .ok [.warn_invalid url] ∧
    ∀ evs u, process_video w raw length = .ok evs →
      Ev.download_called u ∉ evs := by
  have hmain : process_video w raw length = .ok [.warn_invalid url] := by
    simp [process_video, hs, process_videoOk, hy]
  refine ⟨hmain, fun evs u hevs => ?_⟩
  rw [hmain] at hevs
  cases hevs
  simp

/-- C7, witness at a non-YouTube URL. -/
theorem C7_invalid_no_download_witness :
    process_video stubW "http://example.com/watch?v=abc".toList 60 =
      .ok [.warn_invalid "http://example.com/watch?v=abc".toList] :=
  (C7_invalid_no_download stubW "http://example.com/watch?v=abc".toList 60
    "http://example.com/watch?v=abc".toList rfl (by decide)).1

/-! ### Claim C5 -/

/-- C5: when the metadata call fails, `process_video` still proceeds to
the audio-acquisition step (`download_mp3` is invoked) using the
fallback `(f"Video_<timestamp>", "Unknown Artist")` pair — a metadata
fetch failure never aborts the pipeline. -/
theorem C5_metadata_fallback (w : World) (raw : PyStr) (length : Nat)
    (url : PyStr) (hs : sanitize_url raw = .ok url)
    (hy : is_youtube_url url = true) (hm : (w url).metaOk = false) :
    ∃ rest, process_video w raw length =
      .ok (.meta ("Video_".toList ++ (toString (w url).time).toList)
             "Unknown Artist".toList ::
           .download_called url :: rest) := by
  have hpv : process_video w raw length = .ok (process_videoOk w url length) := by
    simp [process_video, hs]
  have hhead : pvHead w url =
      [Ev.meta ("Video_".toList ++ (toString (w url).time).toList)
         "Unknown Artist".toList, Ev.download_called url] := by
    simp [pvHead, fetch_metadata, hm]
  have htail : ∃ tail, process_videoOk w url length = pvHead w url ++ tail := by
    unfold process_videoOk
    rw [if_neg (by simp [hy])]
    split
    · exact ⟨_, rfl⟩
    · split
      · exact ⟨_, rfl⟩
      · split
        · exact ⟨_, rfl⟩
        · exact ⟨_, rfl⟩
  obtain ⟨tail, ht⟩ := htail
  refine ⟨tail, ?_⟩
  rw [hpv, ht, hhead]
  rfl

/-- C5, witness: failing metadata stub on a YouTube URL — the download
step is still reached with the fallback pair. -/
theorem C5_metadata_fallback_witness :
    ∃ rest, process_video stubW "https://youtu.be/xyz".toList 60 =
      .ok (.meta ("Video_".toList ++ (toString (stubW "https://youtu.be/xyz".toList).time).toList)
             "Unknown Artist".toList ::
           .download_called "https://youtu.be/xyz".toList :: rest) :=
  C5_metadata_fallback stubW "https://youtu.be/xyz".toList 60
    "https://youtu.be/xyz".toList rfl (by decide) rfl

/-! ### Claim C6 -/

/-- C6: when the Audio Acquirer reports "no result" (or the returned
path is falsy or does not exist on disk), `process_video` logs the
download error and returns — its `aborted` state — and `trim_and_tag`
is never invoked for that item. -/
theorem C6_no_result_aborts (w : World) (raw : PyStr) (length : Nat)
    (url : PyStr) (hs : sanitize_url raw = .ok url)
    (hy : is_youtube_url url = true)
    (hd : download_mp3 (w url).dl DOWNLOAD_FOLDER = none ∨
      ∃ p, download_mp3 (w url).dl DOWNLOAD_FOLDER = some p ∧
        (p = [] ∨ (w url).fsExists p = false)) :
    (∃ t a, process_video w raw length =
      .ok [.meta t a, .download_called url, .err_download url]) ∧
    ∀ evs p t a l, process_video w raw length = .ok evs →
      Ev.trim_called p t a l ∉ evs := by
  have hpv : process_video w raw length = .ok (process_videoOk w url length) := by
    simp [process_video, hs]
  have hcore : process_videoOk w url length = pvHead w url ++ [.err_download url] := by
    unfold process_videoOk
    rw [if_neg (by simp [hy])]
    rcases hd with hd | ⟨p, hd, hp⟩
    · split
      · rfl
      · next q heq => simp [hd] at heq
    · split
      · next heq => simp [hd] at heq
      · next q heq =>
        rw [hd] at heq
        injection heq with h
        subst h
        have hc : p = [] ∨ ¬((w url).fsExists p = true) := by
          rcases hp with hp | hp
          · exact Or.inl hp
          · exact Or.inr (by simp [hp])
        rw [if_pos hc]
  refine ⟨⟨(fetch_metadata (w url)).1, (fetch_metadata (w url)).2, ?_⟩,
    fun evs p t a l hevs => ?_⟩
  · rw [hpv, hcore]; rfl
  · rw [hpv, hcore] at hevs
    cases hevs
    simp [pvHead]

/-- C6, witness: failing download stub on a YouTube URL. -/
theorem C6_no_result_aborts_witness :
    ∃ t a, process_video stubW "https://youtu.be/xyz".toList 60 =
      .ok [.meta t a, .download_called "https://youtu.be/xyz".toList,
           .err_download "https://youtu.be/xyz".toList] :=
  (C6_no_result_aborts stubW "https://youtu.be/xyz".toList 60
    "https://youtu.be/xyz".toList rfl (by decide) (Or.inl rfl)).1

/-! ### `sanitize_url` succeeds on platform URLs

The dispatcher checks `is_youtube_url` on the raw line before handing
it to a pipeline, and a URL matching the host pattern has the fixed
authority `youtube.com` / `youtu.be` (with optional `www.`), which can
never fail the bracket check: `sanitize_url` cannot raise there. -/

theorem leadsWith_exists {pre l : PyStr} (h : leadsWith pre l = true) :
    ∃ r, l = pre ++ r := by
  induction pre generalizing l with
  | nil => exact ⟨l, rfl⟩
  | cons a as ih =>
    cases l with
    | nil => simp [leadsWith] at h
    | cons b bs =>
      simp only [leadsWith, Bool.and_eq_true, beq_iff_eq] at h
      obtain ⟨rfl, h2⟩ := h
      obtain ⟨r, hr⟩ := ih h2
      exact ⟨r, by rw [hr]; rfl⟩

theorem stripURL_append (a b : PyStr) :
    stripURL (a ++ b) = stripURL a ++ stripURL b :=
  List.filter_append a b

theorem stripURL_cons_keep {c : Char}
    (hc : (c == '\t' || c == '\r' || c == '\n') = false) (l : PyStr) :
    stripURL (c :: l) = c :: stripURL l := by
  simp only [Bool.or_eq_false_iff, beq_eq_false_iff_ne, ne_eq] at hc
  simp [stripURL, List.filter_cons, hc.1.1, hc.1.2, hc.2]

theorem detectScheme_shape {schemeCs : PyStr} (tail : PyStr)
    (h1 : schemeCs ≠ []) (h2 : isAlphaC (schemeCs.headD ' ') = true)
    (h3 : schemeCs.all schemeChar = true)
    (h4 : ∀ c ∈ schemeCs, (c == ':') = false) :
    detectScheme (schemeCs ++ ':' :: tail) = some (lowerStr schemeCs, tail) := by
  unfold detectScheme
  rw [breakAt_hit h4 (by decide)]
  show (if schemeCs ≠ [] ∧ isAlphaC (schemeCs.headD ' ') = true ∧
      schemeCs.all schemeChar = true then some (lowerStr schemeCs, tail) else none) =
    some (lowerStr schemeCs, tail)
  rw [if_pos ⟨h1, h2, h3⟩]

theorem schemeSplit_shape {schemeCs : PyStr} (tail : PyStr)
    (h1 : schemeCs ≠ []) (h2 : isAlphaC (schemeCs.headD ' ') = true)
    (h3 : schemeCs.all schemeChar = true)
    (h4 : ∀ c ∈ schemeCs, (c == ':') = false) :
    schemeSplit (schemeCs ++ ':' :: tail) = (lowerStr schemeCs, tail) := by
  unfold schemeSplit
  rw [detectScheme_shape tail h1 h2 h3 h4]

theorem netlocSplit_shape {netlocCs : PyStr} (tail2 : PyStr)
    (h6 : ∀ c ∈ netlocCs, netlocEnd c = false) :
    netlocSplit ('/' :: '/' :: (netlocCs ++ '/' :: tail2)) = (netlocCs, '/' :: tail2) := by
  unfold netlocSplit
  rw [if_pos (by rfl : leadsWith ['/', '/'] ('/' :: '/' :: (netlocCs ++ '/' :: tail2)) = true)]
  show breakAt netlocEnd (netlocCs ++ '/' :: tail2) = _
  exact breakAt_hit h6 (by decide)

theorem urlsplitE_shape (schemeCs netlocCs rest link : PyStr)
    (hlink : link = schemeCs ++ (':' :: '/' :: '/' :: (netlocCs ++ ('/' :: rest))))
    (h1 : schemeCs ≠ []) (h2 : isAlphaC (schemeCs.headD ' ') = true)
    (h3 : schemeCs.all schemeChar = true)
    (h4 : ∀ c ∈ schemeCs, (c == ':') = false)
    (hs1 : stripURL schemeCs = schemeCs)
    (h6 : ∀ c ∈ netlocCs, netlocEnd c = false)
    (hn1 : stripURL netlocCs = netlocCs)
    (h8 : bracketBad netlocCs = false) :
    urlsplitE link =
      .ok ⟨lowerStr schemeCs, netlocCs,
           (splitAtFirst '?' (splitAtFirst '#' ('/' :: stripURL rest)).1).1,
           (splitAtFirst '?' (splitAtFirst '#' ('/' :: stripURL rest)).1).2,
           (splitAtFirst '#' ('/' :: stripURL rest)).2⟩ := by
  have hstrip : stripURL link =
      schemeCs ++ (':' :: '/' :: '/' :: (netlocCs ++ ('/' :: stripURL rest))) := by
    rw [hlink, stripURL_append, hs1, stripURL_cons_keep (by decide),
      stripURL_cons_keep (by decide), stripURL_cons_keep (by decide),
      stripURL_append, hn1, stripURL_cons_keep (by decide)]
  have hsch : schemeSplit (stripURL link) =
      (lowerStr schemeCs, '/' :: '/' :: (netlocCs ++ ('/' :: stripURL rest))) := by
    rw [hstrip]
    exact schemeSplit_shape _ h1 h2 h3 h4
  have hnet : netlocSplit (schemeSplit (stripURL link)).2 =
      (netlocCs, '/' :: stripURL rest) := by
    rw [hsch]
    exact netlocSplit_shape _ h6
  unfold urlsplitE
  simp only [hsch, netlocSplit_shape (stripURL rest) h6, h8, Bool.false_eq_true, if_false]

/-- Any URL accepted by the host pattern parses without error. -/
theorem sanitize_ok_of_yt {link : PyStr} (hyt : is_youtube_url link = true) :
    ∃ out, sanitize_url link = .ok out := by
  have hsp : ∀ s : SplitR, urlsplitE link = .ok s → ∃ out, sanitize_url link = .ok out := by
    intro s hs
    exact ⟨_, by unfold sanitize_url urlparseE; rw [hs]⟩
  have h8 : leadsWith "http://youtube.com/".toList link = true ∨
      leadsWith "http://www.youtube.com/".toList link = true ∨
      leadsWith "http://youtu.be/".toList link = true ∨
      leadsWith "http://www.youtu.be/".toList link = true ∨
      leadsWith "https://youtube.com/".toList link = true ∨
      leadsWith "https://www.youtube.com/".toList link = true ∨
      leadsWith "https://youtu.be/".toList link = true ∨
      leadsWith "https://www.youtu.be/".toList link = true := by
    simpa [is_youtube_url, ytStems, or_assoc] using hyt
  rcases h8 with h | h | h | h | h | h | h | h <;>
    obtain ⟨r, rfl⟩ := leadsWith_exists h
  · exact hsp _ (urlsplitE_shape "http".toList
      "youtube.com".toList r _ rfl (by decide) (by decide)
      (by decide) (by decide) rfl (by decide) rfl (by decide))
  · exact hsp _ (urlsplitE_shape "http".toList
      "www.youtube.com".toList r _ rfl (by decide) (by decide)
      (by decide) (by decide) rfl (by decide) rfl (by decide))
  · exact hsp _ (urlsplitE_shape "http".toList
      "youtu.be".toList r _ rfl (by decide) (by decide)
      (by decide) (by decide) rfl (by decide) rfl (by decide))
  · exact hsp _ (urlsplitE_shape "http".toList
      "www.youtu.be".toList r _ rfl (by decide) (by decide)
      (by decide) (by decide) rfl (by decide) rfl (by decide))
  · exact hsp _ (urlsplitE_shape "https".toList
      "youtube.com".toList r _ rfl (by decide) (by decide)
      (by decide) (by decide) rfl (by decide) rfl (by decide))
  · exact hsp _ (urlsplitE_shape "https".toList
      "www.youtube.com".toList r _ rfl (by decide) (by decide)
      (by decide) (by decide) rfl (by decide) rfl (by decide))
  · exact hsp _ (urlsplitE_shape "https".toList
      "youtu.be".toList r _ rfl (by decide) (by decide)
      (by decide) (by decide) rfl (by decide) rfl (by decide))
  · exact hsp _ (urlsplitE_shape "https".toList
      "www.youtu.be".toList r _ rfl (by decide) (by decide)
      (by decide) (by decide) rfl (by decide) rfl (by decide))

/-- Each line's processing returns normally with exactly the events of
`handleLine`: the only possible uncaught exception, `sanitize_url`'s
`ValueError`, is unreachable for lines that passed the dispatcher's own
`is_youtube_url` check. -/
theorem lineStep_ok (w : World) (length : Nat) (line : PyStr) :
    lineStep w length line = .ok (handleLine w length line) := by
  unfold lineStep handleLine
  by_cases hb : stripPy line = []
  · simp [hb]
  · by_cases hy : is_youtube_url (stripPy line) = true
    · by_cases hc : containsSub "list=".toList (stripPy line) = true
      · obtain ⟨out, hout⟩ := sanitize_ok_of_yt hy
        have hpp : process_playlist w (stripPy line) length =
            .ok (process_playlistOk w out length) := by
          unfold process_playlist
          rw [hout]
        have hc' : containsSub ['l', 'i', 's', 't', '='] (stripPy line) = true := hc
        simp [hb, hy, hc', hpp]
      · obtain ⟨out, hout⟩ := sanitize_ok_of_yt hy
        have hpv : process_video w (stripPy line) length =
            .ok (process_videoOk w out length) := by
          unfold process_video
          rw [hout]
        have hc' : containsSub ['l', 'i', 's', 't', '='] (stripPy line) = false :=
          Bool.eq_false_iff.mpr hc
        simp [hb, hy, hc', hpv]
    · simp [hb, hy]

/-! ### Claim C3 -/

/-- C3: when the batch file is missing, `batch_from_file` only logs the
error and processes nothing; when it is present, the run always returns
normally and its event trace is exactly the concatenation, in file
order, of each line's own events — so a failure while processing one
non-blank line (any oracle outcome: bad download, failing metadata,
raising playlist member, ...) never halts the processing of subsequent
lines, which are handled strictly in file order. -/
theorem C3_batch_isolation (w : World) (length : Nat) (lines : List PyStr) :
    batch_from_file true lines w length =
      .ok ((lines.map (handleLine w length)).flatten) ∧
    batch_from_file false lines w length = .ok [.err_batch_missing] := by
  constructor
  · show batchLoop w length lines = _
    induction lines with
    | nil => rfl
    | cons line rest ih =>
      rw [batchLoop, lineStep_ok, ih]
      simp
  · rfl

/-! ### Claim C1 -/

/-- C1, counterexample: the batch-file line
`https://www.youtube.com/playlist` contains the substring `playlist`
(and passes the host check) but not `list=`, and the Batch Dispatcher
routes it to `process_video`, not to `process_playlist`: the dispatch
tests only `'list=' in link`. -/
theorem C1_counterexample :
    containsSub "playlist".toList "https://www.youtube.com/playlist".toList = true ∧
    containsSub "list=".toList "https://www.youtube.com/playlist".toList = false ∧
    batch_from_file true ["https://www.youtube.com/playlist".toList] stubW 60 =
      .ok [.called_video "https://www.youtube.com/playlist".toList,
           .meta "Video_0".toList "Unknown Artist".toList,
           .download_called "https://www.youtube.com/playlist".toList,
           .err_download "https://www.youtube.com/playlist".toList] ∧
    ∀ u, Ev.called_playlist u ∉
      [Ev.called_video "https://www.youtube.com/playlist".toList,
       Ev.meta "Video_0".toList "Unknown Artist".toList,
       Ev.download_called "https://www.youtube.com/playlist".toList,
       Ev.err_download "https://www.youtube.com/playlist".toList] := by
  refine ⟨by decide, by decide, by rfl, by intro u; simp⟩

/-- C1, amended: for a non-blank batch-file line that passes the host
pattern, the dispatcher routes it to the Playlist Pipeline exactly when
the line contains the substring `list=`; a line containing `playlist`
without `list=` goes to the Single-Item Pipeline. -/
theorem C1_amended (w : World) (length : Nat) (line link : PyStr)
    (hstrip : stripPy line = link) (hne : link ≠ [])
    (hyt : is_youtube_url link = true) :
    (containsSub "list=".toList link = true →
      ∃ evs, handleLine w length line = .called_playlist link :: evs) ∧
    (containsSub "list=".toList link = false →
      ∃ evs, handleLine w length line = .called_video link :: evs) := by
  unfold handleLine
  rw [hstrip, if_neg hne, if_neg (by simp [hyt])]
  constructor
  · intro hc
    rw [if_pos hc]
    exact ⟨_, rfl⟩
  · intro hc
    rw [if_neg (by simp only [Bool.not_eq_true]; exact hc)]
    exact ⟨_, rfl⟩

/-- C1, witness for the amended routing on both kinds of line. -/
theorem C1_amended_witness :
    (∃ evs, handleLine stubW 60 "https://www.youtube.com/playlist?list=PL".toList =
      .called_playlist "https://www.youtube.com/playlist?list=PL".toList :: evs) ∧
    (∃ evs, handleLine stubW 60 "https://www.youtube.com/watch?v=a".toList =
      .called_video "https://www.youtube.com/watch?v=a".toList :: evs) :=
  ⟨(C1_amended stubW 60 "https://www.youtube.com/playlist?list=PL".toList
      "https://www.youtube.com/playlist?list=PL".toList rfl (by decide) (by decide)).1
      (by decide),
   (C1_amended stubW 60 "https://www.youtube.com/watch?v=a".toList
      "https://www.youtube.com/watch?v=a".toList rfl (by decide) (by decide)).2
      (by decide)⟩

/-! ### The `quote_plus` / `unquote_plus` roundtrip -/

theorem char_isValid (c : Char) :
    c.toNat < 0xd800 ∨ (0xdfff < c.toNat ∧ c.toNat < 0x110000) := c.valid

theorem char_toNat_lt (c : Char) : c.toNat < 0x110000 := by
  rcases char_isValid c with h | h <;> omega

theorem hexDigit_spec : ∀ n, n < 16 →
    isHexC (hexDigitC n) = true ∧ hexV (hexDigitC n) = n := by decide

theorem pctDecode_pct (c1 c2 : Char) (rest : PyStr) :
    pctDecode ('%' :: c1 :: c2 :: rest) =
      if isHexC c1 && isHexC c2 then (hexV c1 * 16 + hexV c2) :: pctDecode rest
      else 37 :: pctDecode (c1 :: c2 :: rest) := rfl

theorem pctDecode_hex {b : Nat} (hb : b < 256) (rest : PyStr) :
    pctDecode (pctByte b ++ rest) = b :: pctDecode rest := by
  have h1 := hexDigit_spec (b / 16) (by omega)
  have h2 := hexDigit_spec (b % 16) (by omega)
  show pctDecode ('%' :: hexDigitC (b / 16) :: hexDigitC (b % 16) :: rest) = _
  rw [pctDecode_pct, h1.1, h2.1, if_pos (show (true && true) = true from rfl), h1.2, h2.2]
  have : b / 16 * 16 + b % 16 = b := by omega
  rw [this]

theorem pctDecode_cons_ne {c : Char} (hc : ¬c = '%') (l : PyStr) :
    pctDecode (c :: l) = c.toNat :: pctDecode l :=
  pctDecode.eq_4 c l (fun _ _ _ hceq _ => hc hceq) hc

theorem utf8Dec_enc (c : Char) (rest : List Nat) :
    utf8Dec (utf8Enc c ++ rest) = c :: utf8Dec rest := by
  have hv := char_toNat_lt c
  unfold utf8Dec utf8Enc
  by_cases h1 : c.toNat < 0x80
  · rw [if_pos h1]
    show utf8DecS 0 0 (c.toNat :: rest) = _
    rw [utf8DecS, if_pos (Or.inl rfl), if_pos rfl, if_pos h1, Char.ofNat_toNat,
      List.nil_append]
  · by_cases h2 : c.toNat < 0x800
    · rw [if_neg h1, if_pos h2]
      show utf8DecS 0 0 ((0xC0 + c.toNat / 64) :: (0x80 + c.toNat % 64) :: rest) = _
      rw [utf8DecS, if_pos (Or.inl rfl), if_pos rfl, List.nil_append,
        if_neg (by omega), if_pos (by constructor <;> omega)]
      have hcont : isCont (0x80 + c.toNat % 64) = true := by
        simp [isCont]; omega
      rw [utf8DecS, if_neg (by simp [hcont]), if_pos rfl]
      have harith : (0xC0 + c.toNat / 64 - 0xC0) * 64 + (0x80 + c.toNat % 64 - 0x80) =
          c.toNat := by omega
      rw [harith, Char.ofNat_toNat]
    · by_cases h3 : c.toNat < 0x10000
      · rw [if_neg h1, if_neg h2, if_pos h3]
        show utf8DecS 0 0 ((0xE0 + c.toNat / 4096) :: (0x80 + c.toNat / 64 % 64) ::
          (0x80 + c.toNat % 64) :: rest) = _
        rw [utf8DecS, if_pos (Or.inl rfl), if_pos rfl, List.nil_append,
          if_neg (by omega), if_neg (by omega), if_pos (by constructor <;> omega)]
        have hcont1 : isCont (0x80 + c.toNat / 64 % 64) = true := by
          simp [isCont]; omega
        have hcont2 : isCont (0x80 + c.toNat % 64) = true := by
          simp [isCont]; omega
        rw [utf8DecS, if_neg (by simp [hcont1]), if_neg (by omega)]
        rw [utf8DecS, if_neg (by simp [hcont2]), if_pos rfl]
        have harith : ((0xE0 + c.toNat / 4096 - 0xE0) * 64 +
            (0x80 + c.toNat / 64 % 64 - 0x80)) * 64 + (0x80 + c.toNat % 64 - 0x80) =
            c.toNat := by omega
        rw [harith, Char.ofNat_toNat]
      · rw [if_neg h1, if_neg h2, if_neg h3]
        show utf8DecS 0 0 ((0xF0 + c.toNat / 262144) :: (0x80 + c.toNat / 4096 % 64) ::
          (0x80 + c.toNat / 64 % 64) :: (0x80 + c.toNat % 64) :: rest) = _
        rw [utf8DecS, if_pos (Or.inl rfl), if_pos rfl, List.nil_append,
          if_neg (by omega), if_neg (by omega), if_neg (by omega),
          if_pos (by constructor <;> omega)]
        have hcont1 : isCont (0x80 + c.toNat / 4096 % 64) = true := by
          simp [isCont]; omega
        have hcont2 : isCont (0x80 + c.toNat / 64 % 64) = true := by
          simp [isCont]; omega
        have hcont3 : isCont (0x80 + c.toNat % 64) = true := by
          simp [isCont]; omega
        rw [utf8DecS, if_neg (by simp [hcont1]), if_neg (by omega)]
        rw [utf8DecS, if_neg (by simp [hcont2]), if_neg (by omega)]
        rw [utf8DecS, if_neg (by simp [hcont3]), if_pos rfl]
        have harith : (((0xF0 + c.toNat / 262144 - 0xF0) * 64 +
            (0x80 + c.toNat / 4096 % 64 - 0x80)) * 64 +
            (0x80 + c.toNat / 64 % 64 - 0x80)) * 64 + (0x80 + c.toNat % 64 - 0x80) =
            c.toNat := by omega
        rw [harith, Char.ofNat_toNat]

theorem char_ne_of_toNat {c d : Char} (h : c.toNat ≠ d.toNat) : ¬c = d :=
  fun he => h (by rw [he])

theorem utf8Enc_lt (c : Char) : ∀ b ∈ utf8Enc c, b < 256 := by
  have hv := char_toNat_lt c
  intro b hb
  unfold utf8Enc at hb
  split_ifs at hb with h1 h2 h3
  · simp at hb; omega
  · simp at hb
    rcases hb with rfl | rfl <;> omega
  · simp at hb
    rcases hb with rfl | rfl | rfl <;> omega
  · simp at hb
    rcases hb with rfl | rfl | rfl | rfl <;> omega

theorem utf8Enc_ascii {c : Char} (h : c.toNat < 0x80) : utf8Enc c = [c.toNat] := by
  unfold utf8Enc
  rw [if_pos h]

theorem safeChar_toNat {c : Char} (h : safeChar c = true) :
    c.toNat < 0x80 ∧ c.toNat ≠ 43 ∧ c.toNat ≠ 37 := by
  unfold safeChar at h
  simp only [Bool.or_eq_true, Bool.and_eq_true, decide_eq_true_eq, beq_iff_eq,
    Nat.beq_eq_true_eq] at h
  rcases h with ((((((h | h) | h) | h) | h) | h) | h) <;>
    refine ⟨by omega, by omega, by omega⟩

theorem isHexC_toNat {c : Char} (h : isHexC c = true) :
    (48 ≤ c.toNat ∧ c.toNat ≤ 57) ∨ (65 ≤ c.toNat ∧ c.toNat ≤ 70) ∨
      (97 ≤ c.toNat ∧ c.toNat ≤ 102) := by
  unfold isHexC at h
  simp only [Bool.or_eq_true, Bool.and_eq_true, decide_eq_true_eq] at h
  tauto

theorem mem_pctByte {b : Nat} (hb : b < 256) {ch : Char} (hch : ch ∈ pctByte b) :
    ch = '%' ∨ isHexC ch = true := by
  unfold pctByte at hch
  simp only [List.mem_cons, List.not_mem_nil, or_false] at hch
  rcases hch with rfl | rfl | rfl
  · exact Or.inl rfl
  · exact Or.inr (hexDigit_spec (b / 16) (by omega)).1
  · exact Or.inr (hexDigit_spec (b % 16) (by omega)).1

theorem map_eq_self_of {f : Char → Char} {l : PyStr}
    (h : ∀ c ∈ l, f c = c) : l.map f = l := by
  induction l with
  | nil => rfl
  | cons c cs ih =>
    rw [List.map_cons, h c (List.mem_cons_self c cs),
      ih (fun d hd => h d (List.mem_cons_of_mem c hd))]

theorem plusToSpace_eq_self {c : Char} (h : c.toNat ≠ 43) : plusToSpace c = c := by
  unfold plusToSpace
  rw [if_neg]
  simp only [beq_iff_eq]
  exact char_ne_of_toNat h

theorem plusToSpace_qpChar (c : Char) : (qpChar c).map plusToSpace = qpCharP c := by
  unfold qpChar qpCharP
  by_cases hs : safeChar c = true
  · rw [if_pos hs, if_pos hs]
    exact map_eq_self_of (fun d hd => by
      rw [show d = c by simpa using hd]
      exact plusToSpace_eq_self (safeChar_toNat hs).2.1)
  · rw [if_neg hs, if_neg hs]
    by_cases hsp : (c == ' ') = true
    · rw [if_pos hsp, if_pos hsp]
      rfl
    · rw [if_neg hsp, if_neg hsp]
      apply map_eq_self_of
      intro d hd
      simp only [List.mem_flatMap] at hd
      obtain ⟨b, hb, hdb⟩ := hd
      rcases mem_pctByte (utf8Enc_lt c b hb) hdb with rfl | hhex
      · rfl
      · have := isHexC_toNat hhex
        exact plusToSpace_eq_self (by omega)

theorem plusToSpace_qpStr (v : PyStr) :
    (qpStr v).map plusToSpace = v.flatMap qpCharP := by
  unfold qpStr
  induction v with
  | nil => rfl
  | cons c cs ih =>
    rw [List.flatMap_cons, List.flatMap_cons, List.map_append, ih, plusToSpace_qpChar]

theorem qpCharP_ascii (c : Char) : ∀ d ∈ qpCharP c, isAsciiC d = true := by
  intro d hd
  unfold qpCharP at hd
  split_ifs at hd with h1 h2
  · simp at hd
    subst hd
    have := (safeChar_toNat h1).1
    simpa [isAsciiC] using this
  · simp at hd
    subst hd
    decide
  · simp only [List.mem_flatMap] at hd
    obtain ⟨b, hb, hdb⟩ := hd
    rcases mem_pctByte (utf8Enc_lt c b hb) hdb with rfl | hhex
    · decide
    · have := isHexC_toNat hhex
      simp only [isAsciiC, decide_eq_true_eq]
      omega

theorem pUnquote_ascii {s : PyStr} (h : ∀ c ∈ s, isAsciiC c = true) :
    pUnquote s = utf8Dec (pctDecode s) := by
  cases s with
  | nil => rfl
  | cons c cs =>
    show pUnquoteF (c :: cs).length (c :: cs) = _
    rw [List.length_cons, pUnquoteF,
      if_pos (h c (List.mem_cons_self c cs))]
    rw [List.takeWhile_eq_self_iff.mpr h, List.dropWhile_eq_nil_iff.mpr
      (fun d hd => by simp [h d hd])]
    cases cs <;> simp [pUnquoteF]

theorem pctDecode_flatMap {bs : List Nat} (h : ∀ b ∈ bs, b < 256) (rest : PyStr) :
    pctDecode (bs.flatMap pctByte ++ rest) = bs ++ pctDecode rest := by
  induction bs with
  | nil => simp
  | cons b bs' ih =>
    rw [List.flatMap_cons, List.append_assoc,
      pctDecode_hex (h b (List.mem_cons_self b bs')) _, List.cons_append,
      ih (fun x hx => h x (List.mem_cons_of_mem b hx))]

theorem pctDecode_qpCharP (v : PyStr) :
    pctDecode (v.flatMap qpCharP) = v.flatMap utf8Enc := by
  induction v with
  | nil => rfl
  | cons c cs ih =>
    rw [List.flatMap_cons, List.flatMap_cons]
    by_cases hs : safeChar c = true
    · rw [show qpCharP c = [c] from by unfold qpCharP; rw [if_pos hs]]
      rw [List.singleton_append,
        pctDecode_cons_ne (char_ne_of_toNat (show c.toNat ≠ Char.toNat '%' from
          (safeChar_toNat hs).2.2)),
        ih, utf8Enc_ascii (safeChar_toNat hs).1, List.singleton_append]
    · by_cases hsp : (c == ' ') = true
      · have hc : c = ' ' := by simpa using hsp
        subst hc
        rw [show qpCharP ' ' = [' '] from rfl, List.singleton_append,
          pctDecode_cons_ne (by decide), ih,
          show utf8Enc ' ' = [32] from rfl, List.singleton_append]
        rfl
      · rw [show qpCharP c = (utf8Enc c).flatMap pctByte from by
            unfold qpCharP; rw [if_neg hs, if_neg hsp],
          pctDecode_flatMap (utf8Enc_lt c), ih]

theorem utf8Dec_flatMap (v : PyStr) : utf8Dec (v.flatMap utf8Enc) = v := by
  induction v with
  | nil => rfl
  | cons c cs ih =>
    rw [List.flatMap_cons, utf8Dec_enc, ih]

/-- The central percent-coding fact: `unquote_plus` inverts
`quote_plus` on every string. -/
theorem qp_roundtrip (v : PyStr) : unquotePlus (qpStr v) = v := by
  unfold unquotePlus
  rw [plusToSpace_qpStr, pUnquote_ascii (fun c hc => by
    simp only [List.mem_flatMap] at hc
    obtain ⟨d, hd, hcd⟩ := hc
    exact qpCharP_ascii d c hcd), pctDecode_qpCharP, utf8Dec_flatMap]

theorem mem_qpChar {c d : Char} (hd : d ∈ qpChar c) : queryOutChar d = true := by
  unfold qpChar at hd
  split_ifs at hd with h1 h2
  · rw [show d = c by simpa using hd]
    simp [queryOutChar, h1]
  · rw [show d = '+' by simpa using hd]
    rfl
  · simp only [List.mem_flatMap] at hd
    obtain ⟨b, hb, hdb⟩ := hd
    rcases mem_pctByte (utf8Enc_lt c b hb) hdb with rfl | hhex
    · rfl
    · simp [queryOutChar, hhex]

theorem mem_qpStr {v : PyStr} {d : Char} (hd : d ∈ qpStr v) :
    queryOutChar d = true := by
  unfold qpStr at hd
  simp only [List.mem_flatMap] at hd
  obtain ⟨c, _, hdc⟩ := hd
  exact mem_qpChar hdc

theorem queryOutChar_toNat {d : Char} (h : queryOutChar d = true) :
    (65 ≤ d.toNat ∧ d.toNat ≤ 90) ∨ (97 ≤ d.toNat ∧ d.toNat ≤ 122) ∨
    (48 ≤ d.toNat ∧ d.toNat ≤ 57) ∨ d.toNat = 95 ∨ d.toNat = 46 ∨ d.toNat = 45 ∨
    d.toNat = 126 ∨ d.toNat = 43 ∨ d.toNat = 37 := by
  unfold queryOutChar safeChar isHexC at h
  simp only [Bool.or_eq_true, Bool.and_eq_true, decide_eq_true_eq, beq_iff_eq,
    Nat.beq_eq_true_eq] at h
  rcases h with ((h | h) | h) | h
  · tauto
  · rw [show d.toNat = 43 from by subst h; rfl]; tauto
  · rw [show d.toNat = 37 from by subst h; rfl]; tauto
  · rcases h with (h | h) | h <;> omega

theorem qpChar_ne_nil (c : Char) : qpChar c ≠ [] := by
  unfold qpChar
  split_ifs with h1 h2
  · simp
  · simp
  · unfold utf8Enc
    split_ifs <;> simp [pctByte]

theorem qpStr_ne_nil {v : PyStr} (hv : v ≠ []) : qpStr v ≠ [] := by
  cases v with
  | nil => exact absurd rfl hv
  | cons c cs =>
    unfold qpStr
    rw [List.flatMap_cons]
    intro h
    exact qpChar_ne_nil c (List.append_eq_nil.mp h).1

theorem splitOnChar_ne_nil (ch : Char) (l : PyStr) : splitOnChar ch l ≠ [] := by
  cases l with
  | nil => simp [splitOnChar]
  | cons c cs =>
    rw [splitOnChar]
    match hsp : splitOnChar ch cs with
    | [] => simp
    | h1 :: t1 => split <;> first | (split <;> simp) | simp

theorem splitOnChar_free {ch : Char} {l : PyStr}
    (h : ∀ c ∈ l, (c == ch) = false) : splitOnChar ch l = [l] := by
  induction l with
  | nil => rfl
  | cons c cs ih =>
    rw [splitOnChar, ih (fun d hd => h d (List.mem_cons_of_mem c hd))]
    simp [h c (List.mem_cons_self c cs)]

theorem splitOnChar_append {ch : Char} {a : PyStr} (b : PyStr)
    (h : ∀ c ∈ a, (c == ch) = false) :
    splitOnChar ch (a ++ ch :: b) = a :: splitOnChar ch b := by
  induction a with
  | nil =>
    show splitOnChar ch (ch :: b) = [] :: splitOnChar ch b
    rw [splitOnChar]
    match hsp : splitOnChar ch b with
    | [] => exact absurd hsp (splitOnChar_ne_nil ch b)
    | h1 :: t1 => simp
  | cons c cs ih =>
    rw [List.cons_append, splitOnChar,
      ih (fun d hd => h d (List.mem_cons_of_mem c hd))]
    simp [h c (List.mem_cons_self c cs)]

theorem pctDecode_ne_nil (c : Char) (l : PyStr) : pctDecode (c :: l) ≠ [] := by
  by_cases hc : c = '%'
  · subst hc
    match l with
    | [] => simp [pctDecode]
    | [c1] =>
      rw [pctDecode.eq_3 [c1] (fun a b r hr => by cases hr)]
      simp
    | c1 :: c2 :: l2 =>
      rw [pctDecode_pct]
      split <;> simp
  · rw [pctDecode_cons_ne hc]
    simp

theorem utf8DecS_ne_nil : ∀ (l : List Nat) (exp acc : Nat),
    exp ≠ 0 ∨ l ≠ [] → utf8DecS exp acc l ≠ [] := by
  intro l
  induction l with
  | nil =>
    intro exp acc h
    rcases h with h | h
    · rw [utf8DecS, if_neg h]
      simp
    · exact absurd rfl h
  | cons b bs ih =>
    intro exp acc _
    rw [utf8DecS]
    split
    · intro hemp
      rcases List.append_eq_nil.mp hemp with ⟨_, h2⟩
      revert h2
      split_ifs with g1 g2 g3 g4
      · simp
      · exact ih 1 (b - 0xC0) (Or.inl one_ne_zero)
      · exact ih 2 (b - 0xE0) (Or.inl (by omega))
      · exact ih 3 (b - 0xF0) (Or.inl (by omega))
      · simp
    · next hnot =>
      have hexp : exp ≠ 0 := by
        intro h0
        exact hnot (Or.inl h0)
      split_ifs with g1
      · simp
      · exact ih (exp - 1) _ (Or.inl (by omega))

theorem pUnquote_ne_nil {s : PyStr} (hs : s ≠ []) : pUnquote s ≠ [] := by
  cases s with
  | nil => exact absurd rfl hs
  | cons c cs =>
    show pUnquoteF (c :: cs).length (c :: cs) ≠ []
    rw [List.length_cons, pUnquoteF]
    by_cases ha : isAsciiC c = true
    · rw [if_pos ha]
      intro hemp
      rcases List.append_eq_nil.mp hemp with ⟨h1, _⟩
      have htw : (c :: cs).takeWhile isAsciiC = c :: cs.takeWhile isAsciiC := by
        rw [List.takeWhile_cons, if_pos ha]
      rw [htw] at h1
      exact utf8DecS_ne_nil _ 0 0 (Or.inr (pctDecode_ne_nil c _)) h1
    · rw [if_neg ha]
      simp

theorem unquotePlus_ne_nil {s : PyStr} (hs : s ≠ []) : unquotePlus s ≠ [] := by
  unfold unquotePlus
  apply pUnquote_ne_nil
  intro h
  exact hs (List.map_eq_nil_iff.mp h)

theorem qpStr_free_of_toNat (n : Nat) {v : PyStr}
    (hn : ¬(65 ≤ n ∧ n ≤ 90) ∧ ¬(97 ≤ n ∧ n ≤ 122) ∧ ¬(48 ≤ n ∧ n ≤ 57) ∧
      n ≠ 95 ∧ n ≠ 46 ∧ n ≠ 45 ∧ n ≠ 126 ∧ n ≠ 43 ∧ n ≠ 37) :
    ∀ c ∈ qpStr v, c.toNat ≠ n := by
  intro c hc
  have := queryOutChar_toNat (mem_qpStr hc)
  omega

theorem qpStr_amp_free (v : PyStr) : ∀ c ∈ qpStr v, (c == '&') = false := by
  intro c hc
  simp only [beq_eq_false_iff_ne, ne_eq]
  exact char_ne_of_toNat (qpStr_free_of_toNat 38 (by omega) c hc)

theorem qsStep_pair {N Q : PyStr} (acc : List (PyStr × PyStr))
    (hN : ∀ c ∈ N, (c == '=') = false) (hQ : Q ≠ []) :
    qsStep (N ++ '=' :: Q) acc = (unquotePlus N, unquotePlus Q) :: acc := by
  unfold qsStep
  rw [if_neg (by simp), breakAt_hit hN (by simp)]
  show (if Q = [] then acc else (unquotePlus N, unquotePlus Q) :: acc) = _
  rw [if_neg hQ]

theorem qsStep_sub {chunk : PyStr} {acc : List (PyStr × PyStr)} :
    ∀ pr ∈ qsStep chunk acc,
      pr ∈ acc ∨ ∃ n v, v ≠ [] ∧ pr = (unquotePlus n, unquotePlus v) := by
  intro pr hpr
  unfold qsStep at hpr
  by_cases hc : chunk = []
  · rw [if_pos hc] at hpr
    exact Or.inl hpr
  · rw [if_neg hc] at hpr
    split at hpr
    · exact Or.inl hpr
    · split at hpr
      · exact Or.inl hpr
      · next hv =>
        rcases List.mem_cons.mp hpr with h | h
        · exact Or.inr ⟨_, _, hv, h⟩
        · exact Or.inl h

/-- Every value produced by `parse_qsl` is non-blank (blank values are
dropped, and `unquote_plus` never maps a nonempty string to empty). -/
theorem qsPairs_val_ne_nil {qs : PyStr} : ∀ pr ∈ qsPairs qs, pr.2 ≠ [] := by
  unfold qsPairs
  generalize splitOnChar '&' qs = chunks
  induction chunks with
  | nil => simp
  | cons chunk rest ih =>
    intro pr hpr
    rw [List.foldr_cons] at hpr
    rcases qsStep_sub pr hpr with h | ⟨n, v, hv, rfl⟩
    · exact ih pr h
    · exact unquotePlus_ne_nil hv

theorem vEq_amp_free : ∀ c ∈ (['v', '='] : PyStr), (c == '&') = false := by decide

theorem listEq_amp_free : ∀ c ∈ (['l', 'i', 's', 't', '='] : PyStr),
    (c == '&') = false := by decide

/-- `parse_qsl` on the query `urlencode` builds from the retained
parameters: exactly the retained pairs come back, decoded. -/
theorem qsPairs_encodeVL (ov ol : Option PyStr)
    (hv : ∀ v, ov = some v → v ≠ []) (hl : ∀ l, ol = some l → l ≠ []) :
    qsPairs (encodeVL ov ol) =
      (match ov with
       | some v => [(['v'], v)]
       | none => []) ++
      (match ol with
       | some l => [(['l', 'i', 's', 't'], l)]
       | none => []) := by
  have hfreeV : ∀ v : PyStr, ∀ c ∈ ['v', '='] ++ qpStr v, (c == '&') = false := by
    intro v c hc
    rcases List.mem_append.mp hc with hc | hc
    · exact vEq_amp_free c hc
    · exact qpStr_amp_free v c hc
  have hfreeL : ∀ l : PyStr, ∀ c ∈ ['l', 'i', 's', 't', '='] ++ qpStr l,
      (c == '&') = false := by
    intro l c hc
    rcases List.mem_append.mp hc with hc | hc
    · exact listEq_amp_free c hc
    · exact qpStr_amp_free l c hc
  cases ov with
  | none =>
    cases ol with
    | none => rfl
    | some l =>
      have hlne := hl l rfl
      show qsPairs (['l', 'i', 's', 't', '='] ++ qpStr l) = _
      unfold qsPairs
      rw [splitOnChar_free (hfreeL l), List.foldr_cons, List.foldr_nil,
        show (['l', 'i', 's', 't', '='] ++ qpStr l : PyStr) =
          ['l', 'i', 's', 't'] ++ '=' :: qpStr l from rfl,
        qsStep_pair [] (by decide) (qpStr_ne_nil hlne),
        show unquotePlus ['l', 'i', 's', 't'] = ['l', 'i', 's', 't'] from rfl,
        qp_roundtrip]
      rfl
  | some v =>
    have hvne := hv v rfl
    cases ol with
    | none =>
      show qsPairs (['v', '='] ++ qpStr v) = _
      unfold qsPairs
      rw [splitOnChar_free (hfreeV v), List.foldr_cons, List.foldr_nil,
        show (['v', '='] ++ qpStr v : PyStr) = ['v'] ++ '=' :: qpStr v from rfl,
        qsStep_pair [] (by decide) (qpStr_ne_nil hvne),
        show unquotePlus ['v'] = ['v'] from rfl, qp_roundtrip]
      rfl
    | some l =>
      have hlne := hl l rfl
      show qsPairs ((['v', '='] ++ qpStr v) ++
        '&' :: (['l', 'i', 's', 't', '='] ++ qpStr l)) = _
      unfold qsPairs
      rw [splitOnChar_append _ (hfreeV v), splitOnChar_free (hfreeL l),
        List.foldr_cons, List.foldr_cons, List.foldr_nil,
        show (['l', 'i', 's', 't', '='] ++ qpStr l : PyStr) =
          ['l', 'i', 's', 't'] ++ '=' :: qpStr l from rfl,
        qsStep_pair [] (by decide) (qpStr_ne_nil hlne),
        show (['v', '='] ++ qpStr v : PyStr) = ['v'] ++ '=' :: qpStr v from rfl,
        qsStep_pair _ (by decide) (qpStr_ne_nil hvne),
        show unquotePlus ['v'] = ['v'] from rfl,
        show unquotePlus ['l', 'i', 's', 't'] = ['l', 'i', 's', 't'] from rfl,
        qp_roundtrip, qp_roundtrip]
      rfl

/-- `urlencode`-then-`parse_qs` reproduces the retained first values. -/
theorem firstVal_encodeVL (ov ol : Option PyStr)
    (hv : ∀ v, ov = some v → v ≠ []) (hl : ∀ l, ol = some l → l ≠ []) :
    firstVal ['v'] (encodeVL ov ol) = ov ∧
    firstVal ['l', 'i', 's', 't'] (encodeVL ov ol) = ol := by
  unfold firstVal
  rw [qsPairs_encodeVL ov ol hv hl]
  cases ov <;> cases ol <;> simp [List.filter]

/-! ### Structural lemmas for the parse/unparse roundtrip -/

theorem toNat_ofNat_valid {n : Nat} (h : n.isValidChar) :
    (Char.ofNat n).toNat = n := by
  rw [Char.ofNat, dif_pos h]
  rfl

theorem lowerC_toNat (c : Char) :
    (65 ≤ c.toNat ∧ c.toNat ≤ 90 ∧ (lowerC c).toNat = c.toNat + 32) ∨
    (¬(65 ≤ c.toNat ∧ c.toNat ≤ 90) ∧ lowerC c = c) := by
  unfold lowerC
  by_cases h : 65 ≤ c.toNat ∧ c.toNat ≤ 90
  · rw [if_pos h]
    exact Or.inl ⟨h.1, h.2, toNat_ofNat_valid (Or.inl (by omega))⟩
  · rw [if_neg h]
    exact Or.inr ⟨h, rfl⟩

theorem lowerC_schemeChar {c : Char} (h : schemeChar c = true) :
    schemeChar (lowerC c) = true := by
  unfold schemeChar at h ⊢
  simp only [Bool.or_eq_true, Bool.and_eq_true, decide_eq_true_eq,
    Nat.beq_eq_true_eq] at h ⊢
  rcases lowerC_toNat c with ⟨h1, h2, h3⟩ | ⟨h1, h2⟩
  · rw [h3]; omega
  · rw [h2]; exact h

theorem lowerC_alpha {c : Char} (h : isAlphaC c = true) :
    isAlphaC (lowerC c) = true := by
  unfold isAlphaC at h ⊢
  simp only [Bool.or_eq_true, Bool.and_eq_true, decide_eq_true_eq] at h ⊢
  rcases lowerC_toNat c with ⟨h1, h2, h3⟩ | ⟨h1, h2⟩
  · rw [h3]; omega
  · rw [h2]; exact h

theorem lowerC_ne_colon {c : Char} (h : (c == ':') = false) :
    (lowerC c == ':') = false := by
  simp only [beq_eq_false_iff_ne, ne_eq] at h ⊢
  rcases lowerC_toNat c with ⟨h1, h2, h3⟩ | ⟨h1, h2⟩
  · refine char_ne_of_toNat ?_
    have h58 : Char.toNat ':' = 58 := rfl
    rw [h3, h58]; omega
  · rw [h2]; exact h

theorem lowerC_idem (c : Char) : lowerC (lowerC c) = lowerC c := by
  rcases lowerC_toNat c with ⟨h1, h2, h3⟩ | ⟨h1, h2⟩
  · rcases lowerC_toNat (lowerC c) with ⟨g1, g2, _⟩ | ⟨g1, g2⟩
    · rw [h3] at g2; omega
    · exact g2
  · rw [h2, h2]

theorem lowerStr_idem (l : PyStr) : lowerStr (lowerStr l) = lowerStr l := by
  unfold lowerStr
  rw [List.map_map]
  exact List.map_congr_left (fun c _ => lowerC_idem c)

theorem splitAtFirst_nil (ch : Char) : splitAtFirst ch [] = ([], []) := rfl

theorem splitAtFirst_free {ch : Char} {l : PyStr}
    (h : ∀ c ∈ l, (c == ch) = false) : splitAtFirst ch l = (l, []) := by
  unfold splitAtFirst
  rw [breakAt_free h]

theorem splitAtFirst_hit {ch : Char} {a : PyStr} (b : PyStr)
    (h : ∀ c ∈ a, (c == ch) = false) :
    splitAtFirst ch (a ++ ch :: b) = (a, b) := by
  unfold splitAtFirst
  rw [breakAt_hit h (by simp)]

theorem splitAtFirst_fst_free (ch : Char) (l : PyStr) :
    ∀ c ∈ (splitAtFirst ch l).1, (c == ch) = false := by
  unfold splitAtFirst
  match hb : breakAt (fun c => c == ch) l with
  | (a, []) =>
    intro c hc
    have := breakAt_snd_head (fun c => c == ch) l
    rw [hb] at this
    rcases this with _ | ⟨d, b2, hd, _⟩
    · have : a = l := by
        have he := breakAt_eq (fun c => c == ch) l
        rw [hb] at he
        simpa using he
      have hf := breakAt_fst_free (fun c => c == ch) l
      rw [hb] at hf
      rw [this] at hf
      exact hf c (by simpa using hc)
    · cases hd
  | (a, d :: b) =>
    intro c hc
    have hf := breakAt_fst_free (fun c => c == ch) l
    rw [hb] at hf
    exact hf c hc

theorem splitAtFirst_sub (ch : Char) (l : PyStr) {c : Char}
    (h : c ∈ (splitAtFirst ch l).1 ∨ c ∈ (splitAtFirst ch l).2) : c ∈ l := by
  unfold splitAtFirst at h
  rcases hb : breakAt (fun c => c == ch) l with ⟨a, bb⟩
  rw [hb] at h
  cases bb with
  | nil =>
    simp only at h
    rcases h with h | h
    · exact h
    · simp at h
  | cons d b =>
    simp only at h
    have h' : c ∈ (breakAt (fun c => c == ch) l).1 ∨
        c ∈ (breakAt (fun c => c == ch) l).2 := by
      rw [hb]
      rcases h with h | h
      · exact Or.inl h
      · exact Or.inr (List.mem_cons_of_mem d h)
    exact breakAt_mem h'

theorem breakAt_hit_head {p : Char → Bool} {l a1 : PyStr} {d : Char} {a2 : PyStr}
    (hb : breakAt p l = (a1, d :: a2)) :
    p d = true ∧ l = a1 ++ d :: a2 ∧ ∀ c ∈ a1, p c = false := by
  refine ⟨?_, ?_, ?_⟩
  · have hh := breakAt_snd_head p l
    rw [hb] at hh
    rcases hh with hh | ⟨d', b', he, hp⟩
    · exact absurd hh (by simp)
    · simp only at he
      injection he with he1 he2
      rw [he1]
      exact hp
  · have he := breakAt_eq p l
    rw [hb] at he
    exact he.symm
  · have hf := breakAt_fst_free p l
    rw [hb] at hf
    exact hf

theorem breakAt_miss {p : Char → Bool} {l a1 : PyStr}
    (hb : breakAt p l = (a1, [])) :
    a1 = l ∧ ∀ c ∈ l, p c = false := by
  have he := breakAt_eq p l
  rw [hb] at he
  simp only [List.append_nil] at he
  have hf := breakAt_fst_free p l
  rw [hb] at hf
  exact ⟨he, by rw [← he]; exact hf⟩

theorem hasChar_free {ch : Char} {l : PyStr}
    (h : ∀ c ∈ l, (c == ch) = false) : hasChar ch l = false := by
  unfold hasChar
  rw [List.any_eq_false]
  intro c hc
  simp [h c hc]

theorem hasChar_of_mem {ch : Char} {l : PyStr} (h : ch ∈ l) :
    hasChar ch l = true := by
  unfold hasChar
  rw [List.any_eq_true]
  exact ⟨ch, h, by simp⟩

theorem splitAtLast_free {ch : Char} {l : PyStr}
    (h : ∀ c ∈ l, (c == ch) = false) : splitAtLast ch l = none := by
  unfold splitAtLast
  rw [breakAt_free (fun c hc => h c (List.mem_reverse.mp hc))]

theorem splitAtLast_append {ch : Char} (before : PyStr) {after : PyStr}
    (h : ∀ c ∈ after, (c == ch) = false) :
    splitAtLast ch (before ++ ch :: after) = some (before, after) := by
  unfold splitAtLast
  rw [show (before ++ ch :: after).reverse = after.reverse ++ ch :: before.reverse by
    simp]
  rw [breakAt_hit (fun c hc => h c (List.mem_reverse.mp hc)) (by simp)]
  simp

theorem splitAtLast_spec (ch : Char) (l : PyStr) :
    (splitAtLast ch l = none ∧ ∀ c ∈ l, (c == ch) = false) ∨
    ∃ b a, splitAtLast ch l = some (b, a) ∧ l = b ++ ch :: a ∧
      ∀ c ∈ a, (c == ch) = false := by
  unfold splitAtLast
  match hb : breakAt (fun c => c == ch) l.reverse with
  | (ra, []) =>
    obtain ⟨he, hf⟩ := breakAt_miss hb
    exact Or.inl ⟨rfl, fun c hc => hf c (List.mem_reverse.mpr hc)⟩
  | (ra, d :: rb) =>
    obtain ⟨hd, he, hf⟩ := breakAt_hit_head hb
    have hd' : d = ch := by simpa using hd
    refine Or.inr ⟨rb.reverse, ra.reverse, rfl, ?_, ?_⟩
    · have h2 := congrArg List.reverse he
      rw [List.reverse_reverse] at h2
      rw [h2, hd']
      simp
    · intro c hc
      exact hf c (List.mem_reverse.mp hc)

theorem splitAtFirst_decomp (ch : Char) (l : PyStr) :
    ∃ t, l = (splitAtFirst ch l).1 ++ t := by
  unfold splitAtFirst
  match hb : breakAt (fun c => c == ch) l with
  | (a, []) => exact ⟨[], by simp⟩
  | (a, d :: b) =>
    obtain ⟨_, he, _⟩ := breakAt_hit_head hb
    exact ⟨d :: b, he⟩

theorem urlunparse_eq (p : Parsed) :
    urlunparse p =
      urlunsplit p.scheme p.netloc (joinPP p.path p.params) p.query p.fragment := rfl

theorem splitParams_some_hit {r b a a1 : PyStr} {d : Char} {a2 : PyStr}
    (hsl : splitAtLast '/' r = some (b, a))
    (hba : breakAt (fun c => c == ';') a = (a1, d :: a2)) :
    splitParams r = (b ++ '/' :: a1, a2) := by
  unfold splitParams
  rw [hsl]
  show (match breakAt (fun c => c == ';') a with
    | (x1, _ :: x2) => (b ++ '/' :: x1, x2)
    | (_, []) => (r, [])) = (b ++ '/' :: a1, a2)
  rw [hba]

theorem splitParams_some_miss {r b a a1 : PyStr}
    (hsl : splitAtLast '/' r = some (b, a))
    (hba : breakAt (fun c => c == ';') a = (a1, [])) :
    splitParams r = (r, []) := by
  unfold splitParams
  rw [hsl]
  show (match breakAt (fun c => c == ';') a with
    | (x1, _ :: x2) => (b ++ '/' :: x1, x2)
    | (_, []) => (r, [])) = (r, [])
  rw [hba]

theorem splitParams_none_hit {r a1 : PyStr} {d : Char} {a2 : PyStr}
    (hsl : splitAtLast '/' r = none)
    (hba : breakAt (fun c => c == ';') r = (a1, d :: a2)) :
    splitParams r = (a1, a2) := by
  unfold splitParams
  rw [hsl]
  show (match breakAt (fun c => c == ';') r with
    | (x1, _ :: x2) => (x1, x2)
    | (_, []) => (r, [])) = (a1, a2)
  rw [hba]

theorem splitParams_none_miss {r a1 : PyStr}
    (hsl : splitAtLast '/' r = none)
    (hba : breakAt (fun c => c == ';') r = (a1, [])) :
    splitParams r = (r, []) := by
  unfold splitParams
  rw [hsl]
  show (match breakAt (fun c => c == ';') r with
    | (x1, _ :: x2) => (x1, x2)
    | (_, []) => (r, [])) = (r, [])
  rw [hba]

/-- `joinPP`-rebuilding the two `pathParamsOf` pieces is a prefix of the
original path (the whole path, except when a trailing blank `;params`
chunk was dropped). -/
theorem pathParamsOf_body (s r : PyStr) :
    ∃ t, r = joinPP (pathParamsOf s r).1 (pathParamsOf s r).2 ++ t := by
  unfold pathParamsOf
  by_cases hg : usesParams.contains s = true ∧ hasChar ';' r = true
  · rw [if_pos hg]
    rcases splitAtLast_spec '/' r with ⟨hsl, hfree⟩ | ⟨b, a, hsl, hra, hafree⟩
    · match hba : breakAt (fun c => c == ';') r with
      | (a1, []) =>
        rw [splitParams_none_miss hsl hba]
        exact ⟨[], by simp [joinPP]⟩
      | (a1, d :: a2) =>
        rw [splitParams_none_hit hsl hba]
        obtain ⟨hd, hre, ha1f⟩ := breakAt_hit_head hba
        have hd' : d = ';' := by simpa using hd
        by_cases h2 : a2 = []
        · subst h2
          exact ⟨[';'], by rw [hre, hd']; simp [joinPP]⟩
        · exact ⟨[], by rw [hre, hd']; simp [joinPP, h2]⟩
    · match hba : breakAt (fun c => c == ';') a with
      | (a1, []) =>
        rw [splitParams_some_miss hsl hba]
        exact ⟨[], by simp [joinPP]⟩
      | (a1, d :: a2) =>
        rw [splitParams_some_hit hsl hba]
        obtain ⟨hd, hae, ha1f⟩ := breakAt_hit_head hba
        have hd' : d = ';' := by simpa using hd
        by_cases h2 : a2 = []
        · subst h2
          exact ⟨[';'], by rw [hra, hae, hd']; simp [joinPP]⟩
        · exact ⟨[], by rw [hra, hae, hd']; simp [joinPP, h2]⟩
  · rw [if_neg hg]
    exact ⟨[], by simp [joinPP]⟩

theorem stripURL_eq_self {l : PyStr} (h : cleanStr l) : stripURL l = l := by
  unfold stripURL
  rw [List.filter_eq_self]
  intro a ha
  obtain ⟨h1, h2, h3⟩ := h a ha
  simp [h1, h2, h3]

theorem stripURL_clean (l : PyStr) : cleanStr (stripURL l) := by
  intro c hc
  unfold stripURL at hc
  rw [List.mem_filter] at hc
  have hp := hc.2
  simp only [Bool.not_eq_true', Bool.or_eq_false_iff] at hp
  exact ⟨hp.1.1, hp.1.2, hp.2⟩

theorem cleanStr_nil : cleanStr [] := by
  intro c hc
  exact absurd hc (List.not_mem_nil c)

theorem cleanStr_append {a b : PyStr} (ha : cleanStr a) (hb : cleanStr b) :
    cleanStr (a ++ b) := by
  intro c hc
  rcases List.mem_append.mp hc with h | h
  · exact ha c h
  · exact hb c h

theorem cleanStr_cons {d : Char} {l : PyStr}
    (hd : (d == '\t') = false ∧ (d == '\r') = false ∧ (d == '\n') = false)
    (hl : cleanStr l) : cleanStr (d :: l) := by
  intro c hc
  rcases List.mem_cons.mp hc with rfl | h
  · exact hd
  · exact hl c h

theorem cleanStr_sub {l m : PyStr} (hm : cleanStr m) (hsub : ∀ c ∈ l, c ∈ m) :
    cleanStr l :=
  fun c hc => hm c (hsub c hc)

theorem lowerC_clean {c : Char}
    (h : (c == '\t') = false ∧ (c == '\r') = false ∧ (c == '\n') = false) :
    (lowerC c == '\t') = false ∧ (lowerC c == '\r') = false ∧
      (lowerC c == '\n') = false := by
  rcases lowerC_toNat c with ⟨h1, h2, h3⟩ | ⟨_, h2⟩
  · have ht : Char.toNat '\t' = 9 := rfl
    have hr : Char.toNat '\r' = 13 := rfl
    have hn : Char.toNat '\n' = 10 := rfl
    exact ⟨beq_eq_false_iff_ne.mpr (char_ne_of_toNat (by rw [h3, ht]; omega)),
           beq_eq_false_iff_ne.mpr (char_ne_of_toNat (by rw [h3, hr]; omega)),
           beq_eq_false_iff_ne.mpr (char_ne_of_toNat (by rw [h3, hn]; omega))⟩
  · rw [h2]; exact h

theorem schemeChar_ne_colon {c : Char} (h : schemeChar c = true) :
    (c == ':') = false := by
  unfold schemeChar at h
  simp only [Bool.or_eq_true, Bool.and_eq_true, decide_eq_true_eq,
    Nat.beq_eq_true_eq] at h
  refine beq_eq_false_iff_ne.mpr (char_ne_of_toNat ?_)
  have h58 : Char.toNat ':' = 58 := rfl
  rw [h58]
  omega

theorem all_schemeChar_colon_free {l : PyStr} (h : l.all schemeChar = true) :
    ∀ c ∈ l, (c == ':') = false := by
  rw [List.all_eq_true] at h
  exact fun c hc => schemeChar_ne_colon (h c hc)

/-- What a successful scheme detection tells about the input. -/
theorem detectScheme_spec {u s0 rest : PyStr}
    (h : detectScheme u = some (s0, rest)) :
    ∃ pre, u = pre ++ ':' :: rest ∧ s0 = lowerStr pre ∧ pre ≠ [] ∧
      isAlphaC (pre.headD ' ') = true ∧ pre.all schemeChar = true := by
  unfold detectScheme at h
  split at h
  next pre d rest' hb =>
    split at h
    next hgd =>
      obtain ⟨hd, hue, _⟩ := breakAt_hit_head hb
      have hd' : d = ':' := by simpa using hd
      rw [Option.some.injEq, Prod.mk.injEq] at h
      obtain ⟨h1, h2⟩ := h
      rw [hd', h2] at hue
      exact ⟨pre, hue, h1.symm, hgd.1, hgd.2.1, hgd.2.2⟩
    next => exact absurd h (by simp)
  next pre hb => exact absurd h (by simp)

/-- A URL starting with `/` has no scheme. -/
theorem detectScheme_slash (l : PyStr) : detectScheme ('/' :: l) = none := by
  match hds : detectScheme ('/' :: l) with
  | none => rfl
  | some (s0, rest) =>
    obtain ⟨pre, hue, _, hne, hhead, _⟩ := detectScheme_spec hds
    exfalso
    cases pre with
    | nil => exact hne rfl
    | cons c t =>
      injection hue with h1 _
      rw [← h1] at hhead
      have hred : (('/' :: t : PyStr).headD ' ') = '/' := rfl
      rw [hred] at hhead
      exact absurd hhead (by decide)

/-- The two possible outcomes of the scheme-removal step. -/
theorem schemeSplit_cases (u : PyStr) :
    schemeSplit u = ([], u) ∨
    ∃ pre rest, u = pre ++ ':' :: rest ∧
      schemeSplit u = (lowerStr pre, rest) ∧ pre ≠ [] ∧
      isAlphaC (pre.headD ' ') = true ∧ pre.all schemeChar = true := by
  unfold schemeSplit
  match hds : detectScheme u with
  | none => exact Or.inl rfl
  | some (s0, rest) =>
    obtain ⟨pre, hue, hs0, hne, hh, ha⟩ := detectScheme_spec hds
    exact Or.inr ⟨pre, rest, hue, by rw [hs0], hne, hh, ha⟩

/-- The two possible outcomes of the authority step. -/
theorem netlocSplit_cases (r : PyStr) :
    netlocSplit r = ([], r) ∨
    (leadsWith ['/', '/'] r = true ∧
     netlocSplit r = breakAt netlocEnd (r.drop 2)) := by
  unfold netlocSplit
  by_cases hl : leadsWith ['/', '/'] r = true
  · exact Or.inr ⟨hl, by rw [if_pos hl]⟩
  · exact Or.inl (by rw [if_neg hl])

/-- Unfolding a successful `urlsplit`. -/
theorem urlsplitE_ok {raw : PyStr} {s : SplitR} (h : urlsplitE raw = .ok s) :
    bracketBad (netlocSplit (schemeSplit (stripURL raw)).2).1 = false ∧
    s = ⟨(schemeSplit (stripURL raw)).1,
         (netlocSplit (schemeSplit (stripURL raw)).2).1,
         (splitAtFirst '?'
           (splitAtFirst '#' (netlocSplit (schemeSplit (stripURL raw)).2).2).1).1,
         (splitAtFirst '?'
           (splitAtFirst '#' (netlocSplit (schemeSplit (stripURL raw)).2).2).1).2,
         (splitAtFirst '#' (netlocSplit (schemeSplit (stripURL raw)).2).2).2⟩ := by
  unfold urlsplitE at h
  by_cases hb : bracketBad (netlocSplit (schemeSplit (stripURL raw)).2).1 = true
  · rw [if_pos hb] at h
    exact absurd h (by simp)
  · rw [if_neg hb] at h
    refine ⟨by simpa using hb, ?_⟩
    injection h with h'
    exact h'.symm

/-- Unfolding a successful `urlparse`. -/
theorem urlparseE_ok {raw : PyStr} {p : Parsed} (h : urlparseE raw = .ok p) :
    ∃ s, urlsplitE raw = .ok s ∧
      p = ⟨s.scheme, s.netloc, (pathParamsOf s.scheme s.path).1,
           (pathParamsOf s.scheme s.path).2, s.query, s.fragment⟩ := by
  unfold urlparseE at h
  match hs : urlsplitE raw with
  | .error e => rw [hs] at h; exact absurd h (by simp)
  | .ok s =>
    rw [hs] at h
    have h' : (Except.ok ⟨s.scheme, s.netloc, (pathParamsOf s.scheme s.path).1,
        (pathParamsOf s.scheme s.path).2, s.query, s.fragment⟩ :
        Except PyErr Parsed) = Except.ok p := h
    injection h' with h''
    exact ⟨s, rfl, h''.symm⟩

/-- Splitting `;params` off a path is idempotent: re-splitting the
rebuilt `path[;params]` recovers the same two pieces. -/
theorem pathParamsOf_idem (s r : PyStr) :
    pathParamsOf s (joinPP (pathParamsOf s r).1 (pathParamsOf s r).2)
      = pathParamsOf s r := by
  by_cases hg : usesParams.contains s = true ∧ hasChar ';' r = true
  · rcases splitAtLast_spec '/' r with ⟨hsl, hfree⟩ | ⟨b, a, hsl, hra, hafree⟩
    · match hba : breakAt (fun c => c == ';') r with
      | (a1, []) =>
        have hpp : pathParamsOf s r = (r, []) := by
          unfold pathParamsOf
          rw [if_pos hg, splitParams_none_miss hsl hba]
        rw [hpp, show joinPP r [] = r by simp [joinPP]]
        exact hpp
      | (a1, d :: a2) =>
        obtain ⟨hd, hre, ha1f⟩ := breakAt_hit_head hba
        have hd' : d = ';' := by simpa using hd
        have hpp : pathParamsOf s r = (a1, a2) := by
          unfold pathParamsOf
          rw [if_pos hg, splitParams_none_hit hsl hba]
        rw [hpp]
        by_cases h2 : a2 = []
        · subst h2
          rw [show joinPP a1 [] = a1 by simp [joinPP]]
          unfold pathParamsOf
          rw [if_neg (by simp [hasChar_free ha1f])]
        · rw [show joinPP a1 a2 = r by rw [hre, hd']; simp [joinPP, h2]]
          exact hpp
    · match hba : breakAt (fun c => c == ';') a with
      | (a1, []) =>
        have hpp : pathParamsOf s r = (r, []) := by
          unfold pathParamsOf
          rw [if_pos hg, splitParams_some_miss hsl hba]
        rw [hpp, show joinPP r [] = r by simp [joinPP]]
        exact hpp
      | (a1, d :: a2) =>
        obtain ⟨hd, hae, ha1f⟩ := breakAt_hit_head hba
        have hd' : d = ';' := by simpa using hd
        have ha1slash : ∀ c ∈ a1, (c == '/') = false := by
          intro c hc
          exact hafree c (by rw [hae]; exact List.mem_append_left _ hc)
        have ha2slash : ∀ c ∈ a2, (c == '/') = false := by
          intro c hc
          refine hafree c ?_
          rw [hae]
          exact List.mem_append_right _ (List.mem_cons_of_mem d hc)
        have hpp : pathParamsOf s r = (b ++ '/' :: a1, a2) := by
          unfold pathParamsOf
          rw [if_pos hg, splitParams_some_hit hsl hba]
        rw [hpp]
        by_cases h2 : a2 = []
        · subst h2
          rw [show joinPP (b ++ '/' :: a1) [] = b ++ '/' :: a1 by simp [joinPP]]
          by_cases hc : hasChar ';' (b ++ '/' :: a1) = true
          · unfold pathParamsOf
            rw [if_pos ⟨hg.1, hc⟩,
              splitParams_some_miss (splitAtLast_append b ha1slash)
                (breakAt_free ha1f)]
          · unfold pathParamsOf
            rw [if_neg (by simp [hc])]
        · have hJ : joinPP (b ++ '/' :: a1) a2 = b ++ '/' :: (a1 ++ ';' :: a2) := by
            simp [joinPP, h2]
          rw [hJ]
          have hfree2 : ∀ c ∈ a1 ++ ';' :: a2, (c == '/') = false := by
            intro c hc
            rcases List.mem_append.mp hc with hc | hc
            · exact ha1slash c hc
            · rcases List.mem_cons.mp hc with rfl | hc
              · decide
              · exact ha2slash c hc
          unfold pathParamsOf
          rw [if_pos ⟨hg.1, hasChar_of_mem (by simp)⟩,
            splitParams_some_hit (splitAtLast_append b hfree2)
              (breakAt_hit ha1f (by decide))]
  · have hpp : pathParamsOf s r = (r, []) := by
      unfold pathParamsOf
      rw [if_neg hg]
    rw [hpp, show joinPP r [] = r by simp [joinPP]]
    exact hpp

/-- The result of `urlparse`, given as the successive split outcomes,
satisfies every `GoodParsed` invariant. -/
theorem good_of_parts {u sch R nl rest2 bfr frg rawp qry pth prm : PyStr}
    (hcu : cleanStr u)
    (hsch : schemeSplit u = (sch, R))
    (hnls : netlocSplit R = (nl, rest2))
    (hbb : bracketBad nl = false)
    (hbfr : splitAtFirst '#' rest2 = (bfr, frg))
    (hqs : splitAtFirst '?' bfr = (rawp, qry))
    (hpp : pathParamsOf sch rawp = (pth, prm)) :
    GoodParsed ⟨sch, nl, pth, prm, qry, frg⟩ := by
  have hbfr1 : (splitAtFirst '#' rest2).1 = bfr := by rw [hbfr]
  have hbfr2 : (splitAtFirst '#' rest2).2 = frg := by rw [hbfr]
  have hqs1 : (splitAtFirst '?' bfr).1 = rawp := by rw [hqs]
  have hqs2 : (splitAtFirst '?' bfr).2 = qry := by rw [hqs]
  have hscheme_all : sch ≠ [] →
      isAlphaC (sch.headD ' ') = true ∧ sch.all schemeChar = true ∧
      lowerStr sch = sch := by
    intro hne
    rcases schemeSplit_cases u with hc | ⟨pre, rest0, hue, hc, hpne, hh, ha⟩
    · rw [hsch] at hc
      injection hc with hc1 hc2
      exact absurd hc1 hne
    · rw [hsch] at hc
      injection hc with hc1 hc2
      subst hc1
      refine ⟨?_, ?_, lowerStr_idem pre⟩
      · cases pre with
        | nil => exact absurd rfl hpne
        | cons c t =>
          have hred : lowerStr (c :: t) = lowerC c :: lowerStr t := rfl
          rw [hred]
          exact lowerC_alpha hh
      · rw [List.all_eq_true] at ha ⊢
        intro x hx
        unfold lowerStr at hx
        rw [List.mem_map] at hx
        obtain ⟨d, hd, rfl⟩ := hx
        exact lowerC_schemeChar (ha d hd)
  have hsch_clean : cleanStr sch := by
    rcases schemeSplit_cases u with hc | ⟨pre, rest0, hue, hc, hpne, hh, ha⟩
    · rw [hsch] at hc
      injection hc with hc1 hc2
      rw [hc1]
      exact cleanStr_nil
    · rw [hsch] at hc
      injection hc with hc1 hc2
      rw [hc1]
      intro c hcm
      unfold lowerStr at hcm
      rw [List.mem_map] at hcm
      obtain ⟨d, hd, rfl⟩ := hcm
      refine lowerC_clean (hcu d ?_)
      rw [hue]
      exact List.mem_append_left _ hd
  have hR_sub : ∀ c ∈ R, c ∈ u := by
    rcases schemeSplit_cases u with hc | ⟨pre, rest0, hue, hc, _, _, _⟩
    · rw [hsch] at hc
      injection hc with hc1 hc2
      intro c hcm
      rw [← hc2]
      exact hcm
    · rw [hsch] at hc
      injection hc with hc1 hc2
      intro c hcm
      rw [hc2] at hcm
      rw [hue]
      exact List.mem_append_right _ (List.mem_cons_of_mem _ hcm)
  have hnl_free : ∀ c ∈ nl, netlocEnd c = false := by
    rcases netlocSplit_cases R with hc | ⟨hl, hc⟩
    · rw [hnls] at hc
      injection hc with hc1 hc2
      rw [hc1]
      intro c hcm
      exact absurd hcm (List.not_mem_nil c)
    · rw [hnls] at hc
      intro c hcm
      have h1 : nl = (breakAt netlocEnd (R.drop 2)).1 := by rw [← hc]
      rw [h1] at hcm
      exact breakAt_fst_free _ _ c hcm
  have hnl_sub : ∀ c ∈ nl, c ∈ R := by
    rcases netlocSplit_cases R with hc | ⟨hl, hc⟩
    · rw [hnls] at hc
      injection hc with hc1 hc2
      rw [hc1]
      intro c hcm
      exact absurd hcm (List.not_mem_nil c)
    · rw [hnls] at hc
      intro c hcm
      have h1 : nl = (breakAt netlocEnd (R.drop 2)).1 := by rw [← hc]
      rw [h1] at hcm
      exact List.mem_of_mem_drop (breakAt_mem (Or.inl hcm))
  have hrest2_sub : ∀ c ∈ rest2, c ∈ R := by
    rcases netlocSplit_cases R with hc | ⟨hl, hc⟩
    · rw [hnls] at hc
      injection hc with hc1 hc2
      intro c hcm
      rw [← hc2]
      exact hcm
    · rw [hnls] at hc
      intro c hcm
      have h2 : rest2 = (breakAt netlocEnd (R.drop 2)).2 := by rw [← hc]
      rw [h2] at hcm
      exact List.mem_of_mem_drop (breakAt_mem (Or.inr hcm))
  have hrest2_head : nl ≠ [] →
      rest2 = [] ∨ ∃ d t, rest2 = d :: t ∧ netlocEnd d = true := by
    intro hne
    rcases netlocSplit_cases R with hc | ⟨hl, hc⟩
    · rw [hnls] at hc
      injection hc with hc1 hc2
      exact absurd hc1 hne
    · rw [hnls] at hc
      have h2 : rest2 = (breakAt netlocEnd (R.drop 2)).2 := by rw [← hc]
      rw [h2]
      exact breakAt_snd_head netlocEnd (R.drop 2)
  have hbfr_sub : ∀ c ∈ bfr, c ∈ rest2 := by
    intro c hcm
    exact splitAtFirst_sub '#' rest2 (Or.inl (by rw [hbfr1]; exact hcm))
  have hfrg_sub : ∀ c ∈ frg, c ∈ rest2 := by
    intro c hcm
    exact splitAtFirst_sub '#' rest2 (Or.inr (by rw [hbfr2]; exact hcm))
  have hrawp_sub : ∀ c ∈ rawp, c ∈ bfr := by
    intro c hcm
    exact splitAtFirst_sub '?' bfr (Or.inl (by rw [hqs1]; exact hcm))
  have hqry_sub : ∀ c ∈ qry, c ∈ bfr := by
    intro c hcm
    exact splitAtFirst_sub '?' bfr (Or.inr (by rw [hqs2]; exact hcm))
  have hbfr_hash : ∀ c ∈ bfr, (c == '#') = false := by
    intro c hcm
    refine splitAtFirst_fst_free '#' rest2 c ?_
    rw [hbfr1]
    exact hcm
  have hrawp_q : ∀ c ∈ rawp, (c == '?') = false := by
    intro c hcm
    refine splitAtFirst_fst_free '?' bfr c ?_
    rw [hqs1]
    exact hcm
  have hbody : ∃ t, rawp = joinPP pth prm ++ t := by
    have h0 := pathParamsOf_body sch rawp
    rw [hpp] at h0
    exact h0
  have hbody_sub : ∀ c ∈ joinPP pth prm, c ∈ rawp := by
    obtain ⟨t, ht⟩ := hbody
    intro c hcm
    rw [ht]
    exact List.mem_append_left _ hcm
  refine ⟨?_, ?_, ?_, ?_, ?_, ?_, ?_, ?_, ?_, ?_, ?_, ?_, ?_⟩
  · exact hscheme_all
  · exact hnl_free
  · exact hbb
  · intro c hcm
    exact hbfr_hash c (hrawp_sub c (hbody_sub c hcm))
  · intro c hcm
    exact hrawp_q c (hbody_sub c hcm)
  · intro c hcm
    exact hbfr_hash c (hqry_sub c hcm)
  · intro hne
    by_cases hb0 : joinPP pth prm = []
    · exact Or.inl hb0
    · right
      cases hJcase : joinPP pth prm with
      | nil => exact absurd hJcase hb0
      | cons c0 bt =>
        have hc0r : c0 ∈ rawp :=
          hbody_sub c0 (by rw [hJcase]; exact List.mem_cons_self c0 bt)
        obtain ⟨t1, ht1⟩ := hbody
        obtain ⟨t2, ht2⟩ := splitAtFirst_decomp '?' bfr
        rw [hqs1] at ht2
        obtain ⟨t3, ht3⟩ := splitAtFirst_decomp '#' rest2
        rw [hbfr1] at ht3
        have hrest2eq : rest2 = c0 :: (bt ++ t1 ++ t2 ++ t3) := by
          rw [ht3, ht2, ht1, hJcase]
          simp [List.append_assoc]
        rcases hrest2_head hne with h0 | ⟨d, t, hdt, hdE⟩
        · rw [h0] at hrest2eq
          exact absurd hrest2eq.symm (List.cons_ne_nil _ _)
        · rw [hdt] at hrest2eq
          injection hrest2eq with hd1 _
          rw [hd1] at hdE
          have hq0 : (c0 == '?') = false := hrawp_q c0 hc0r
          have hh0 : (c0 == '#') = false := hbfr_hash c0 (hrawp_sub c0 hc0r)
          unfold netlocEnd at hdE
          simp only [Bool.or_eq_true] at hdE
          rcases hdE with (hs0 | hbad) | hbad
          · have hc0 : c0 = '/' := by simpa using hs0
            subst hc0
            simp [leadsWith]
          · rw [hq0] at hbad
            exact absurd hbad Bool.false_ne_true
          · rw [hh0] at hbad
            exact absurd hbad Bool.false_ne_true
  · have h0 := pathParamsOf_idem sch rawp
    rw [hpp] at h0
    exact h0
  · exact hsch_clean
  · exact cleanStr_sub hcu fun c hc => hR_sub c (hnl_sub c hc)
  · exact cleanStr_sub hcu fun c hc =>
      hR_sub c (hrest2_sub c (hbfr_sub c (hrawp_sub c (hbody_sub c hc))))
  · exact cleanStr_sub hcu fun c hc =>
      hR_sub c (hrest2_sub c (hbfr_sub c (hqry_sub c hc)))
  · exact cleanStr_sub hcu fun c hc => hR_sub c (hrest2_sub c (hfrg_sub c hc))

/-- Every `ParseResult` that `urlparse` returns is well formed. -/
theorem good_of_parse {raw : PyStr} {p : Parsed} (h : urlparseE raw = .ok p) :
    GoodParsed p := by
  obtain ⟨s, hs, hp⟩ := urlparseE_ok h
  obtain ⟨hbb, hsv⟩ := urlsplitE_ok hs
  subst hp
  subst hsv
  exact good_of_parts (stripURL_clean raw) Prod.mk.eta.symm Prod.mk.eta.symm hbb
    Prod.mk.eta.symm Prod.mk.eta.symm Prod.mk.eta.symm

/-- The round trip: `urlparse` of `urlunparse` of a well-formed parse
result with a nonempty authority is the identity. -/
theorem reparse_ok {p : Parsed} (g : GoodParsed p) (hnl : p.netloc ≠ []) :
    urlparseE (urlunparse p) = .ok p := by
  have hun : urlunparse p =
      (if p.scheme ≠ [] then p.scheme ++ [':'] else []) ++
      ('/' :: '/' :: (p.netloc ++ (joinPP p.path p.params ++
        ((if p.query ≠ [] then '?' :: p.query else []) ++
         (if p.fragment ≠ [] then '#' :: p.fragment else []))))) := by
    have hin : (if joinPP p.path p.params ≠ [] ∧
        ¬leadsWith ['/'] (joinPP p.path p.params) = true then
        '/' :: joinPP p.path p.params else joinPP p.path p.params) =
        joinPP p.path p.params := by
      rcases g.lead hnl with hB | hB
      · rw [if_neg]
        intro hcon
        exact hcon.1 hB
      · rw [if_neg]
        intro hcon
        exact hcon.2 hB
    rw [urlunparse_eq]
    unfold urlunsplit
    rw [if_pos (Or.inl hnl)]
    rw [hin]
    by_cases h1 : p.scheme = [] <;> by_cases h2 : p.query = [] <;>
      by_cases h3 : p.fragment = [] <;>
      simp [h1, h2, h3, List.append_assoc]
  have hBqt_hash : ∀ c ∈ joinPP p.path p.params ++
      (if p.query ≠ [] then '?' :: p.query else []), (c == '#') = false := by
    intro c hc
    rcases List.mem_append.mp hc with hc | hc
    · exact g.body_hash c hc
    · by_cases h2 : p.query = []
      · rw [if_neg (fun hcon => hcon h2)] at hc
        exact absurd hc (List.not_mem_nil c)
      · rw [if_pos h2] at hc
        rcases List.mem_cons.mp hc with rfl | hc
        · decide
        · exact g.query_hash c hc
  have hsf : splitAtFirst '#' (joinPP p.path p.params ++
      ((if p.query ≠ [] then '?' :: p.query else []) ++
       (if p.fragment ≠ [] then '#' :: p.fragment else []))) =
      (joinPP p.path p.params ++ (if p.query ≠ [] then '?' :: p.query else []),
       p.fragment) := by
    by_cases h3 : p.fragment = []
    · rw [show (if p.fragment ≠ [] then '#' :: p.fragment else []) = ([] : PyStr)
        from if_neg (fun hc => hc h3), List.append_nil, h3]
      exact splitAtFirst_free hBqt_hash
    · rw [if_pos h3,
        show joinPP p.path p.params ++
          ((if p.query ≠ [] then '?' :: p.query else []) ++ '#' :: p.fragment) =
          (joinPP p.path p.params ++ (if p.query ≠ [] then '?' :: p.query else []))
          ++ '#' :: p.fragment by simp [List.append_assoc]]
      exact splitAtFirst_hit p.fragment hBqt_hash
  have hsq : splitAtFirst '?' (joinPP p.path p.params ++
      (if p.query ≠ [] then '?' :: p.query else [])) =
      (joinPP p.path p.params, p.query) := by
    by_cases h2 : p.query = []
    · rw [if_neg (fun hcon => hcon h2), List.append_nil, h2]
      exact splitAtFirst_free g.body_q
    · rw [if_pos h2]
      exact splitAtFirst_hit p.query g.body_q
  have hcb : cleanStr (urlunparse p) := by
    rw [hun]
    refine cleanStr_append ?_ (cleanStr_cons (by decide) (cleanStr_cons (by decide)
      (cleanStr_append g.clean_netloc (cleanStr_append g.clean_body
        (cleanStr_append ?_ ?_)))))
    · by_cases h1 : p.scheme = []
      · rw [if_neg (fun hcon => hcon h1)]
        exact cleanStr_nil
      · rw [if_pos h1]
        exact cleanStr_append g.clean_scheme (cleanStr_cons (by decide) cleanStr_nil)
    · by_cases h2 : p.query = []
      · rw [if_neg (fun hcon => hcon h2)]
        exact cleanStr_nil
      · rw [if_pos h2]
        exact cleanStr_cons (by decide) g.clean_query
    · by_cases h3 : p.fragment = []
      · rw [if_neg (fun hcon => hcon h3)]
        exact cleanStr_nil
      · rw [if_pos h3]
        exact cleanStr_cons (by decide) g.clean_frag
  have hstrip : stripURL (urlunparse p) =
      (if p.scheme ≠ [] then p.scheme ++ [':'] else []) ++
      ('/' :: '/' :: (p.netloc ++ (joinPP p.path p.params ++
        ((if p.query ≠ [] then '?' :: p.query else []) ++
         (if p.fragment ≠ [] then '#' :: p.fragment else []))))) := by
    rw [stripURL_eq_self hcb]
    exact hun
  have hss : schemeSplit (stripURL (urlunparse p)) =
      (p.scheme, '/' :: '/' :: (p.netloc ++ (joinPP p.path p.params ++
        ((if p.query ≠ [] then '?' :: p.query else []) ++
         (if p.fragment ≠ [] then '#' :: p.fragment else []))))) := by
    rw [hstrip]
    by_cases h1 : p.scheme = []
    · rw [if_neg (fun hcon => hcon h1), List.nil_append]
      unfold schemeSplit
      rw [detectScheme_slash, h1]
    · rw [if_pos h1]
      obtain ⟨hh, ha, hlow⟩ := g.scheme_ok h1
      rw [← List.append_cons,
        schemeSplit_shape _ h1 hh ha (all_schemeChar_colon_free ha), hlow]
  have hns : netlocSplit ('/' :: '/' :: (p.netloc ++ (joinPP p.path p.params ++
      ((if p.query ≠ [] then '?' :: p.query else []) ++
       (if p.fragment ≠ [] then '#' :: p.fragment else []))))) =
      (p.netloc, joinPP p.path p.params ++
        ((if p.query ≠ [] then '?' :: p.query else []) ++
         (if p.fragment ≠ [] then '#' :: p.fragment else []))) := by
    unfold netlocSplit
    rw [if_pos (by rfl : leadsWith ['/', '/'] ('/' :: '/' :: (p.netloc ++
      (joinPP p.path p.params ++
        ((if p.query ≠ [] then '?' :: p.query else []) ++
         (if p.fragment ≠ [] then '#' :: p.fragment else []))))) = true)]
    show breakAt netlocEnd (p.netloc ++ (joinPP p.path p.params ++
      ((if p.query ≠ [] then '?' :: p.query else []) ++
       (if p.fragment ≠ [] then '#' :: p.fragment else [])))) = _
    by_cases htail : joinPP p.path p.params ++
        ((if p.query ≠ [] then '?' :: p.query else []) ++
         (if p.fragment ≠ [] then '#' :: p.fragment else [])) = []
    · rw [htail, List.append_nil]
      exact breakAt_free g.netloc_free
    · have hhead : ∃ d t', joinPP p.path p.params ++
          ((if p.query ≠ [] then '?' :: p.query else []) ++
           (if p.fragment ≠ [] then '#' :: p.fragment else [])) = d :: t' ∧
          netlocEnd d = true := by
        by_cases hB : joinPP p.path p.params = []
        · by_cases h2 : p.query = []
          · by_cases h3 : p.fragment = []
            · exact absurd (by rw [hB, if_neg (fun hc => hc h2),
                if_neg (fun hc => hc h3)]; rfl) htail
            · refine ⟨'#', p.fragment, ?_, by decide⟩
              rw [hB, if_neg (fun hc => hc h2), if_pos h3]
              rfl
          · refine ⟨'?', p.query ++
              (if p.fragment ≠ [] then '#' :: p.fragment else []), ?_, by decide⟩
            rw [hB, if_pos h2]
            rfl
        · rcases g.lead hnl with hB0 | hlead
          · exact absurd hB0 hB
          · obtain ⟨r0, hr0⟩ := leadsWith_exists hlead
            refine ⟨'/', r0 ++
              ((if p.query ≠ [] then '?' :: p.query else []) ++
               (if p.fragment ≠ [] then '#' :: p.fragment else [])), ?_, by decide⟩
            rw [hr0]
            rfl
      obtain ⟨d, t', ht', hdE⟩ := hhead
      rw [ht']
      exact breakAt_hit g.netloc_free hdE
  have hsplit : urlsplitE (urlunparse p) =
      .ok ⟨p.scheme, p.netloc, joinPP p.path p.params, p.query, p.fragment⟩ := by
    unfold urlsplitE
    simp only [hss, hns, hsf, hsq, g.netloc_br, Bool.false_eq_true, if_false]
  unfold urlparseE
  rw [hsplit]
  show (Except.ok ⟨p.scheme, p.netloc,
      (pathParamsOf p.scheme (joinPP p.path p.params)).1,
      (pathParamsOf p.scheme (joinPP p.path p.params)).2,
      p.query, p.fragment⟩ : Except PyErr Parsed) = Except.ok p
  rw [g.pp]

theorem head_map_mem {α β : Type} {l : List α} {f : α → β} {b : β}
    (h : l.head?.map f = some b) : ∃ a ∈ l, f a = b := by
  cases l with
  | nil => exact absurd h (by simp)
  | cons x t => exact ⟨x, List.mem_cons_self x t, by simpa using h⟩

/-- A first query value returned by `parse_qs` is never blank. -/
theorem firstVal_some_ne_nil {k q val : PyStr} (h : firstVal k q = some val) :
    val ≠ [] := by
  unfold firstVal at h
  obtain ⟨pr, hmem, hval⟩ := head_map_mem h
  have hne := qsPairs_val_ne_nil pr (List.mem_of_mem_filter hmem)
  rw [← hval]
  exact hne

theorem encodeVL_none_none : encodeVL none none = [] := rfl

theorem encodeVL_none_some (l : PyStr) :
    encodeVL none (some l) = ['l', 'i', 's', 't', '='] ++ qpStr l := rfl

theorem encodeVL_some_none (v : PyStr) :
    encodeVL (some v) none = ['v', '='] ++ qpStr v := rfl

theorem encodeVL_some_some (v l : PyStr) :
    encodeVL (some v) (some l) =
      (['v', '='] ++ qpStr v) ++ '&' :: (['l', 'i', 's', 't', '='] ++ qpStr l) := rfl

/-- Every character of an `urlencode` output is a quoting-alphabet
character or one of the literal key/separator characters. -/
theorem encodeVL_mem {ov ol : Option PyStr} {c : Char} (hc : c ∈ encodeVL ov ol) :
    queryOutChar c = true ∨ c ∈ (['v', '=', 'l', 'i', 's', 't', '&'] : PyStr) := by
  have hlit : ∀ d ∈ (['l', 'i', 's', 't', '='] : PyStr),
      d ∈ (['v', '=', 'l', 'i', 's', 't', '&'] : PyStr) := by decide
  have hvlit : ∀ d ∈ (['v', '='] : PyStr),
      d ∈ (['v', '=', 'l', 'i', 's', 't', '&'] : PyStr) := by decide
  cases ov with
  | none =>
    cases ol with
    | none =>
      rw [encodeVL_none_none] at hc
      exact absurd hc (List.not_mem_nil c)
    | some l =>
      rw [encodeVL_none_some] at hc
      rcases List.mem_append.mp hc with hc | hc
      · exact Or.inr (hlit c hc)
      · exact Or.inl (mem_qpStr hc)
  | some v =>
    cases ol with
    | none =>
      rw [encodeVL_some_none] at hc
      rcases List.mem_append.mp hc with hc | hc
      · exact Or.inr (hvlit c hc)
      · exact Or.inl (mem_qpStr hc)
    | some l =>
      rw [encodeVL_some_some] at hc
      rcases List.mem_append.mp hc with hc | hc
      · rcases List.mem_append.mp hc with hc | hc
        · exact Or.inr (hvlit c hc)
        · exact Or.inl (mem_qpStr hc)
      · rcases List.mem_cons.mp hc with rfl | hc
        · exact Or.inr (by decide)
        · rcases List.mem_append.mp hc with hc | hc
          · exact Or.inr (hlit c hc)
          · exact Or.inl (mem_qpStr hc)

theorem encodeVL_hash_free (ov ol : Option PyStr) :
    ∀ c ∈ encodeVL ov ol, (c == '#') = false := by
  intro c hc
  rcases encodeVL_mem hc with h | h
  · refine beq_eq_false_iff_ne.mpr (char_ne_of_toNat ?_)
    have h35 : Char.toNat '#' = 35 := rfl
    have := queryOutChar_toNat h
    rw [h35]
    omega
  · exact (by decide : ∀ d ∈ (['v', '=', 'l', 'i', 's', 't', '&'] : PyStr),
      (d == '#') = false) c h

theorem encodeVL_clean (ov ol : Option PyStr) : cleanStr (encodeVL ov ol) := by
  intro c hc
  rcases encodeVL_mem hc with h | h
  · have ht : Char.toNat '\t' = 9 := rfl
    have hr : Char.toNat '\r' = 13 := rfl
    have hn : Char.toNat '\n' = 10 := rfl
    have := queryOutChar_toNat h
    exact ⟨beq_eq_false_iff_ne.mpr (char_ne_of_toNat (by rw [ht]; omega)),
           beq_eq_false_iff_ne.mpr (char_ne_of_toNat (by rw [hr]; omega)),
           beq_eq_false_iff_ne.mpr (char_ne_of_toNat (by rw [hn]; omega))⟩
  · exact (by decide : ∀ d ∈ (['v', '=', 'l', 'i', 's', 't', '&'] : PyStr),
      (d == '\t') = false ∧ (d == '\r') = false ∧ (d == '\n') = false) c h

/-- Replacing the query of a well-formed parse result by a `#`-free,
clean one preserves well-formedness. -/
theorem good_update_query {p : Parsed} (g : GoodParsed p) (q' : PyStr)
    (hq1 : ∀ c ∈ q', (c == '#') = false) (hq2 : cleanStr q') :
    GoodParsed ⟨p.scheme, p.netloc, p.path, p.params, q', p.fragment⟩ := by
  refine ⟨?_, ?_, ?_, ?_, ?_, ?_, ?_, ?_, ?_, ?_, ?_, ?_, ?_⟩
  · exact g.scheme_ok
  · exact g.netloc_free
  · exact g.netloc_br
  · exact g.body_hash
  · exact g.body_q
  · exact hq1
  · exact g.lead
  · exact g.pp
  · exact g.clean_scheme
  · exact g.clean_netloc
  · exact g.clean_body
  · exact hq2
  · exact g.clean_frag

/-- Unfolding `sanitize_url` on an input that parses. -/
theorem sanitize_url_of_parse {raw : PyStr} {p : Parsed}
    (hp : urlparseE raw = .ok p) :
    sanitize_url raw = .ok (urlunparse ⟨p.scheme, p.netloc, p.path, p.params,
      encodeVL (firstVal ['v'] p.query) (firstVal ['l', 'i', 's', 't'] p.query),
      p.fragment⟩) := by
  unfold sanitize_url
  rw [hp]

/-- The heart of the normaliser's algebra: for inputs that parse with a
nonempty authority, the output re-parses to exactly the input's
components with the rebuilt query, and re-sanitising it is the
identity. -/
theorem sanitize_reparse {raw out : PyStr} {p : Parsed}
    (hp : urlparseE raw = .ok p) (hnl : p.netloc ≠ [])
    (hs : sanitize_url raw = .ok out) :
    urlparseE out = .ok ⟨p.scheme, p.netloc, p.path, p.params,
      encodeVL (firstVal ['v'] p.query) (firstVal ['l', 'i', 's', 't'] p.query),
      p.fragment⟩ ∧
    sanitize_url out = .ok out := by
  have hout : out = urlunparse ⟨p.scheme, p.netloc, p.path, p.params,
      encodeVL (firstVal ['v'] p.query) (firstVal ['l', 'i', 's', 't'] p.query),
      p.fragment⟩ := by
    have h1 := sanitize_url_of_parse hp
    rw [hs] at h1
    exact Except.ok.inj h1
  have g' : GoodParsed ⟨p.scheme, p.netloc, p.path, p.params,
      encodeVL (firstVal ['v'] p.query) (firstVal ['l', 'i', 's', 't'] p.query),
      p.fragment⟩ :=
    good_update_query (good_of_parse hp) _
      (encodeVL_hash_free (firstVal ['v'] p.query)
        (firstVal ['l', 'i', 's', 't'] p.query))
      (encodeVL_clean (firstVal ['v'] p.query)
        (firstVal ['l', 'i', 's', 't'] p.query))
  have hrp := reparse_ok g' hnl
  have hparse_out : urlparseE out = .ok ⟨p.scheme, p.netloc, p.path, p.params,
      encodeVL (firstVal ['v'] p.query) (firstVal ['l', 'i', 's', 't'] p.query),
      p.fragment⟩ := by
    rw [hout]
    exact hrp
  refine ⟨hparse_out, ?_⟩
  have hs2 : sanitize_url out = .ok (urlunparse ⟨p.scheme, p.netloc, p.path,
      p.params,
      encodeVL
        (firstVal ['v'] (encodeVL (firstVal ['v'] p.query)
          (firstVal ['l', 'i', 's', 't'] p.query)))
        (firstVal ['l', 'i', 's', 't'] (encodeVL (firstVal ['v'] p.query)
          (firstVal ['l', 'i', 's', 't'] p.query))),
      p.fragment⟩) := sanitize_url_of_parse hparse_out
  obtain ⟨hfv, hfl⟩ := firstVal_encodeVL (firstVal ['v'] p.query)
      (firstVal ['l', 'i', 's', 't'] p.query)
      (fun v hv => firstVal_some_ne_nil hv)
      (fun l hl => firstVal_some_ne_nil hl)
  rw [hfv, hfl] at hs2
  rw [← hout] at hs2
  exact hs2

/-- C8 (counterexample): `sanitize_url` is not idempotent on every
input.  `'/////x'` sanitises to `'///x'` — itself a normaliser output —
yet sanitising `'///x'` yields `'/x'`, not `'///x'`: the `//`-authority
consumption of `urlparse` eats two further slashes on each pass. -/
theorem C8_counterexample :
    sanitize_url ("/////x".toList) = .ok ("///x".toList) ∧
    sanitize_url ("///x".toList) ≠ .ok ("///x".toList) := by
  constructor
  · rfl
  · intro h
    have h1 : sanitize_url ("///x".toList) = .ok ("/x".toList) := rfl
    rw [h1] at h
    exact absurd (Except.ok.inj h) (by decide)

/-- C8 (amended): the normaliser is idempotent on every URL that parses
with a nonempty authority component (every real `http(s)://host/...`
URL): re-sanitising such a sanitised URL returns it unchanged. -/
theorem C8_amended {raw out : PyStr} {p : Parsed}
    (hp : urlparseE raw = .ok p) (hnl : p.netloc ≠ [])
    (hs : sanitize_url raw = .ok out) :
    sanitize_url out = .ok out :=
  (sanitize_reparse hp hnl hs).2

theorem C8_amended_witness :
    urlparseE ("https://www.youtube.com/watch?v=abc&t=10s".toList) =
      .ok ⟨"https".toList, "www.youtube.com".toList, "/watch".toList, [],
           "v=abc&t=10s".toList, []⟩ ∧
    ("www.youtube.com".toList : PyStr) ≠ [] ∧
    sanitize_url ("https://www.youtube.com/watch?v=abc&t=10s".toList) =
      .ok ("https://www.youtube.com/watch?v=abc".toList) ∧
    sanitize_url ("https://www.youtube.com/watch?v=abc".toList) =
      .ok ("https://www.youtube.com/watch?v=abc".toList) :=
  ⟨by rfl, by decide, by rfl,
   @C8_amended ("https://www.youtube.com/watch?v=abc&t=10s".toList)
     ("https://www.youtube.com/watch?v=abc".toList)
     ⟨"https".toList, "www.youtube.com".toList, "/watch".toList,
       [], "v=abc&t=10s".toList, []⟩ (by rfl) (by decide) (by rfl)⟩

/-- C9 (counterexample): the normaliser does have an error condition:
an unmatched square bracket in the authority makes `urlparse` raise
`ValueError`, which `sanitize_url` propagates — the malformed URL does
not pass through. -/
theorem C9_counterexample :
    sanitize_url ("http://[x/".toList) = .error .valueError := rfl

/-- C9 (amended): for every URL that parses with a nonempty authority,
the sanitised output re-parses with the same scheme, host, path, params
and fragment, and its query holds exactly the retained first `v` and
`list` values of the input and nothing else. -/
theorem C9_amended {raw out : PyStr} {p : Parsed}
    (hp : urlparseE raw = .ok p) (hnl : p.netloc ≠ [])
    (hs : sanitize_url raw = .ok out) :
    ∃ p', urlparseE out = .ok p' ∧ p'.scheme = p.scheme ∧
      p'.netloc = p.netloc ∧ p'.path = p.path ∧ p'.params = p.params ∧
      p'.fragment = p.fragment ∧
      firstVal ['v'] p'.query = firstVal ['v'] p.query ∧
      firstVal ['l', 'i', 's', 't'] p'.query =
        firstVal ['l', 'i', 's', 't'] p.query ∧
      qsPairs p'.query =
        (match firstVal ['v'] p.query with
         | some v => [(['v'], v)]
         | none => []) ++
        (match firstVal ['l', 'i', 's', 't'] p.query with
         | some l => [(['l', 'i', 's', 't'], l)]
         | none => []) := by
  obtain ⟨hfv, hfl⟩ := firstVal_encodeVL (firstVal ['v'] p.query)
      (firstVal ['l', 'i', 's', 't'] p.query)
      (fun v hv => firstVal_some_ne_nil hv)
      (fun l hl => firstVal_some_ne_nil hl)
  refine ⟨⟨p.scheme, p.netloc, p.path, p.params,
      encodeVL (firstVal ['v'] p.query) (firstVal ['l', 'i', 's', 't'] p.query),
      p.fragment⟩,
    (sanitize_reparse hp hnl hs).1, rfl, rfl, rfl, rfl, rfl, hfv, hfl, ?_⟩
  rcases hA : firstVal ['v'] p.query with _ | v <;>
    rcases hB : firstVal ['l', 'i', 's', 't'] p.query with _ | l
  · have hq := qsPairs_encodeVL none none
      (fun v hv => Option.noConfusion hv) (fun l hl => Option.noConfusion hl)
    simpa using hq
  · have hq := qsPairs_encodeVL none (some l)
      (fun v hv => Option.noConfusion hv)
      (fun l' hl' => Option.some.inj hl' ▸ firstVal_some_ne_nil hB)
    simpa using hq
  · have hq := qsPairs_encodeVL (some v) none
      (fun v' hv' => Option.some.inj hv' ▸ firstVal_some_ne_nil hA)
      (fun l hl => Option.noConfusion hl)
    simpa using hq
  · have hq := qsPairs_encodeVL (some v) (some l)
      (fun v' hv' => Option.some.inj hv' ▸ firstVal_some_ne_nil hA)
      (fun l' hl' => Option.some.inj hl' ▸ firstVal_some_ne_nil hB)
    simpa using hq

theorem C9_amended_witness :
    urlparseE ("https://www.youtube.com/watch?v=a&t=5&list=PL1".toList) =
      .ok ⟨"https".toList, "www.youtube.com".toList, "/watch".toList, [],
           "v=a&t=5&list=PL1".toList, []⟩ ∧
    ("www.youtube.com".toList : PyStr) ≠ [] ∧
    sanitize_url ("https://www.youtube.com/watch?v=a&t=5&list=PL1".toList) =
      .ok ("https://www.youtube.com/watch?v=a&list=PL1".toList) ∧
    (∃ p', urlparseE ("https://www.youtube.com/watch?v=a&list=PL1".toList) =
        .ok p' ∧
      p'.scheme = "https".toList ∧ p'.netloc = "www.youtube.com".toList ∧
      p'.path = "/watch".toList ∧ p'.params = [] ∧ p'.fragment = [] ∧
      firstVal ['v'] p'.query = firstVal ['v'] ("v=a&t=5&list=PL1".toList) ∧
      firstVal ['l', 'i', 's', 't'] p'.query =
        firstVal ['l', 'i', 's', 't'] ("v=a&t=5&list=PL1".toList) ∧
      qsPairs p'.query =
        (match firstVal ['v'] ("v=a&t=5&list=PL1".toList) with
         | some v => [(['v'], v)]
         | none => []) ++
        (match firstVal ['l', 'i', 's', 't'] ("v=a&t=5&list=PL1".toList) with
         | some l => [(['l', 'i', 's', 't'], l)]
         | none => [])) :=
  ⟨by rfl, by decide, by rfl,
   @C9_amended ("https://www.youtube.com/watch?v=a&t=5&list=PL1".toList)
     ("https://www.youtube.com/watch?v=a&list=PL1".toList)
     ⟨"https".toList, "www.youtube.com".toList, "/watch".toList,
       [], "v=a&t=5&list=PL1".toList, []⟩ (by rfl) (by decide) (by rfl)⟩

end Y2B
